import Mathlib

/-!
# Verification of the EAV schema engine (`eav_fields/eav.py`)

A shallow embedding of the attribute/schema validation engine:

* `Dec` models Python's `decimal.Decimal` internal value
  `(sign, digit-tuple, exponent)` for finite values; `decStr` models
  `Decimal.__str__` and `decOfChars` the finite-number branch of the
  `_pydecimal` numeric-string grammar.  `PyDec` extends the domain with
  the `Infinity`/`NaN` special values, and `pyDecOfChars` models the
  full construction from a string (strip, underscore removal, specials),
  over which the `EAVDecimal` JSON channel is transcribed again
  (`decimalCoerce`/`decimalToJson`/`decimalFromJson`).
* `JVal` models the Python values flowing through the engine
  (`None`, `bool`, `int`, `float`, `str`, `Decimal`, `list`, `dict`).
* `EAVAttr` models the attribute descriptor classes
  (`EAVString`, `EAVBoolean`, `EAVInteger`, `EAVFloat`, `EAVDecimal`)
  with their `validate` / `_coerce` / `_check_constraints` /
  `to_json` / `from_json` methods.
* `Schema` models a schema definition: the merged attribute set built by
  `EAVSchemaMeta.__new__` plus the `validate_cross` hook;
  `Schema.validate` models `EAVSchema.validate`.

Strings are modelled as `List Char` (`Str`); Python dicts as ordered
association lists, matching the insertion-order semantics of `dict`.
-/

/-- Python strings, modelled as lists of characters. -/
abbrev Str := List Char

/-- Decimal digit `d` (`d < 10`) as a character. -/
def digitChar : Nat → Char
  | 0 => '0' | 1 => '1' | 2 => '2' | 3 => '3' | 4 => '4'
  | 5 => '5' | 6 => '6' | 7 => '7' | 8 => '8' | _ => '9'

/-- The numeric value of a digit character. -/
def charDigit (c : Char) : Nat := c.toNat - 48

/-- Is `c` one of `'0'..'9'`? -/
def isDigitCh (c : Char) : Bool := 48 ≤ c.toNat && c.toNat ≤ 57

/-- Little-endian decimal digits with structural fuel (so that terms
reduce definitionally; `natDigitsAux n n` agrees with `Nat.digits 10 n`). -/
def natDigitsAux : Nat → Nat → List Nat
  | 0, _ => []
  | _ + 1, 0 => []
  | fuel + 1, n + 1 => ((n + 1) % 10) :: natDigitsAux fuel ((n + 1) / 10)

/-- Decimal digits of `n`, most significant first (`[]` for `0`). -/
def natDigitsMSB (n : Nat) : List Nat := (natDigitsAux n n).reverse

/-- Python `"%d" % n` for a natural number. -/
def natStr (n : Nat) : Str :=
  if n = 0 then ['0'] else (natDigitsMSB n).map digitChar

/-- Python `"%d" % i` for an integer. -/
def intStr (i : Int) : Str :=
  (if i < 0 then ['-'] else []) ++ natStr i.natAbs

/-- Python `"%+d" % i` (always emits a sign), as used by `Decimal.__str__`
for the exponent. -/
def intSignedStr (i : Int) : Str :=
  (if i < 0 then '-' else '+') :: natStr i.natAbs

/-- The value of a most-significant-first digit list. -/
def natOfDigitsMSB (l : List Nat) : Nat :=
  l.foldl (fun a d => 10 * a + d) 0

/-- Python string comparison `a <= b` (lexicographic on code points). -/
def strLe : Str → Str → Bool
  | [], _ => true
  | _ :: _, [] => false
  | a :: as, b :: bs =>
    if a.toNat < b.toNat then true
    else if b.toNat < a.toNat then false
    else strLe as bs

/-- Insert into a `strLe`-sorted list. -/
def strInsort (x : Str) : List Str → List Str
  | [] => [x]
  | y :: ys => if strLe x y then x :: y :: ys else y :: strInsort x ys

/-- Python `sorted` on a list of strings (insertion sort; the keys being
sorted are distinct, so stability is irrelevant). -/
def sortStrs (l : List Str) : List Str := l.foldr strInsort []

/-!
## Python `Decimal`

`Dec` is the internal representation exposed by `Decimal.as_tuple()`
for a finite value: a sign, the coefficient digit sequence (most
significant first), and the exponent.  `Dec` is the decimal payload the
schema layer stores; the `Decimal` constructor itself also accepts the
`Infinity`/`NaN` spellings, which `PyDec` (further below) adds to the
domain.
-/

/-- A finite Python `Decimal`: `(sign, digits, exponent)` per `as_tuple()`. -/
structure Dec where
  sign : Bool
  digits : List Nat
  exp : Int
deriving DecidableEq, Repr

/-- Well-formedness invariant maintained by the `Decimal` constructor:
the coefficient is non-empty, all digits are `< 10`, and it has no leading
zero except for the single-digit coefficient `0` itself. -/
def Dec.WF (d : Dec) : Prop :=
  d.digits ≠ [] ∧ (∀ x ∈ d.digits, x < 10) ∧
    (d.digits.head? = some 0 → d.digits = [0])

instance (d : Dec) : Decidable d.WF := by
  unfold Dec.WF; infer_instance

/-- `Decimal.__str__` (finite, non-engineering case), transcribed from
`_pydecimal.Decimal.__str__`. -/
def decStr (d : Dec) : Str :=
  let n : Int := d.digits.length
  let leftdigits : Int := d.exp + n
  let dotplace : Int := if d.exp ≤ 0 ∧ -6 < leftdigits then leftdigits else 1
  let ds : List Char := d.digits.map digitChar
  let ip : List Char :=
    if dotplace ≤ 0 then ['0']
    else if n ≤ dotplace then ds ++ List.replicate (dotplace - n).toNat '0'
    else ds.take dotplace.toNat
  let fp : List Char :=
    if dotplace ≤ 0 then '.' :: (List.replicate (-dotplace).toNat '0' ++ ds)
    else if n ≤ dotplace then []
    else '.' :: ds.drop dotplace.toNat
  let ep : List Char :=
    if leftdigits = dotplace then [] else 'E' :: intSignedStr (leftdigits - dotplace)
  (if d.sign then ['-'] else []) ++ ip ++ fp ++ ep

/-- Longest digit run at the head of a character list, as digit values,
together with the rest. -/
def spanDigits : List Char → List Nat × List Char
  | [] => ([], [])
  | c :: rest =>
    if isDigitCh c then
      let (ds, r) := spanDigits rest
      (charDigit c :: ds, r)
    else ([], c :: rest)

/-- `str(int(s))` applied to a digit sequence: strip leading zeros, keeping
a single `0` if nothing remains. -/
def canonDigits (l : List Nat) : List Nat :=
  match l.dropWhile (· = 0) with
  | [] => [0]
  | l' => l'

/-- Consume an optional leading sign: `[-+]?`. -/
def splitSign : List Char → Bool × List Char
  | c :: t => if c = '-' then (true, t) else if c = '+' then (false, t) else (false, c :: t)
  | [] => (false, [])

/-- Tail of the parse after `E`/`e`: optional sign, then at least one digit,
then end of input. `alldigits` is the concatenated int+frac digit run and
`fplen` the number of fractional digits. -/
def decExpTail (sign : Bool) (alldigits : List Nat) (fplen : Nat)
    (r : List Char) : Option Dec :=
  let sr := splitSign r
  let er := spanDigits sr.2
  if er.1 = [] ∨ er.2 ≠ [] then none
  else
    let e : Int := (if sr.1 then -1 else 1) * (natOfDigitsMSB er.1 : Int)
    some ⟨sign, canonDigits alldigits, e - fplen⟩

/-- The optional fractional part `(\. digits)?`: if the remainder after
the integer digits starts with `'.'`, consume the fractional digits. -/
def fracStage (st : List Nat × List Char) : List Nat × List Char :=
  match st.2 with
  | c :: r => if c = '.' then spanDigits r else ([], st.2)
  | [] => ([], st.2)

/-- Finish the parse: require a non-empty coefficient, then either end of
input or an exponent part. `ip` are the integer digits, `fr` the fractional
digits with the remaining characters. -/
def finStage (sign : Bool) (ip : List Nat) (fr : List Nat × List Char) :
    Option Dec :=
  if ip = [] ∧ fr.1 = [] then none
  else
    match fr.2 with
    | [] => some ⟨sign, canonDigits (ip ++ fr.1), -(fr.1.length : Int)⟩
    | c :: r =>
      if c = 'E' ∨ c = 'e' then decExpTail sign (ip ++ fr.1) fr.1.length r
      else none

/-- The numeric-string parse after the optional leading sign:
`digits [. digits] [E [sign] digits]`, requiring at least one digit in the
coefficient; the coefficient is canonicalized by `str(int(...))` and the
exponent adjusted by the fractional length. -/
def decAfterSign (sign : Bool) (cs1 : List Char) : Option Dec :=
  finStage sign (spanDigits cs1).1 (fracStage (spanDigits cs1))

/-- Construction of a `Decimal` from a numeric string — the finite-number
branch of the `_pydecimal` parsing grammar
`[sign] digits [. digits] [E [sign] digits]`. -/
def decOfChars (cs : List Char) : Option Dec :=
  decAfterSign (splitSign cs).1 (splitSign cs).2

/-- Exact comparison helper: the signed coefficient of `d` scaled to the
common exponent `m ≤ d.exp`. -/
def decScaled (d : Dec) (m : Int) : Int :=
  (if d.sign then -1 else 1) * (natOfDigitsMSB d.digits : Int) * 10 ^ (d.exp - m).toNat

/-- Python `Decimal` `<` (exact numeric comparison). -/
def decLt (a b : Dec) : Bool :=
  decScaled a (min a.exp b.exp) < decScaled b (min a.exp b.exp)

/-- Python `Decimal` `==` (exact numeric equality, independent of scale). -/
def decNumEq (a b : Dec) : Bool :=
  decScaled a (min a.exp b.exp) = decScaled b (min a.exp b.exp)

/-- The `Decimal` denoting the integer `i` (exponent `0`). -/
def decOfInt (i : Int) : Dec :=
  ⟨i < 0, if i = 0 then [0] else natDigitsMSB i.natAbs, 0⟩

/-!
## Python values

`JVal` models every Python value the engine manipulates.  Floats carry an
`Int` payload: no claim exercises fractional floats or float rounding —
only identity of float values and the (exact, for these integers)
`float(int)` widening in `EAVFloat._coerce` matter — so the model covers
the floats that are exact integers.
-/

/-- A Python value: `None`, `bool`, `int`, `float`, `str`, `Decimal`,
`list`, or `dict`. -/
inductive JVal where
  | null
  | bool (b : Bool)
  | int (n : Int)
  | float (x : Int)
  | str (s : Str)
  | dec (d : Dec)
  | arr (xs : List JVal)
  | obj (kvs : List (Str × JVal))

/-- Python `value is None`. -/
def JVal.isNull : JVal → Bool
  | .null => true
  | _ => false

mutual

/-- Structural equality of Python values (used by `==` on non-numeric
values: strings, `None`, lists, dicts). -/
def JVal.beq : JVal → JVal → Bool
  | .null, .null => true
  | .bool a, .bool b => a == b
  | .int a, .int b => a == b
  | .float a, .float b => a == b
  | .str a, .str b => a == b
  | .dec a, .dec b => decide (a = b)
  | .arr xs, .arr ys => JVal.beqL xs ys
  | .obj xs, .obj ys => JVal.beqKV xs ys
  | _, _ => false

/-- Elementwise `JVal.beq` on lists. -/
def JVal.beqL : List JVal → List JVal → Bool
  | [], [] => true
  | x :: xs, y :: ys => JVal.beq x y && JVal.beqL xs ys
  | _, _ => false

/-- Elementwise `JVal.beq` on key-value lists. -/
def JVal.beqKV : List (Str × JVal) → List (Str × JVal) → Bool
  | [], [] => true
  | (k1, v1) :: xs, (k2, v2) :: ys => k1 == k2 && JVal.beq v1 v2 && JVal.beqKV xs ys
  | _, _ => false

end

/-- Python `str(value)` for the values the engine stringifies (scalars;
containers yield a non-numeric placeholder for their `repr`, which no
claim inspects — it only matters that it is not a numeric string). -/
def pyStr : JVal → Str
  | .null => "None".data
  | .bool true => "True".data
  | .bool false => "False".data
  | .int n => intStr n
  | .float x => intStr x ++ ".0".data
  | .str s => s
  | .dec d => decStr d
  | .arr _ => "[...]".data
  | .obj _ => "\x7b...\x7d".data

/-- Python `repr(value)` as used in the choices error message. -/
def pyRepr : JVal → Str
  | .str s => '\'' :: (s ++ ['\''])
  | .dec d => "Decimal('".data ++ decStr d ++ "')".data
  | v => pyStr v

/-- The numeric value of `v`, if `v` is numeric (`bool` counts as `0`/`1`,
as in Python's numeric tower). -/
def JVal.asNum? : JVal → Option Dec
  | .bool b => some (decOfInt (if b then 1 else 0))
  | .int n => some (decOfInt n)
  | .float x => some (decOfInt x)
  | .dec d => some d
  | _ => none

/-- Python `==` on the values the engine compares: numeric values compare
by exact value across `bool`/`int`/`float`/`Decimal`; everything else
structurally. -/
def pyEq (a b : JVal) : Bool :=
  match a.asNum?, b.asNum? with
  | some x, some y => decNumEq x y
  | _, _ => JVal.beq a b

/-- `", ".join(...)`. -/
def joinComma : List Str → Str
  | [] => []
  | [x] => x
  | x :: xs => x ++ ", ".data ++ joinComma xs

/-!
## Attribute descriptors

`EAVAttr` is the tagged union of the five descriptor classes.  `AttrOpts`
carries the fields of the `EAVAttribute` base constructor; the Python
`None` default/absence sentinel is `JVal.null`.  Integer-valued options
are `Option Int` (Python `int | None`).
-/

/-- The fields set by `EAVAttribute.__init__` (plus `name`, set later by
the metaclass). -/
structure AttrOpts where
  name : Str := []
  required : Bool := true
  default : JVal := .null
  help_text : Str := []
  choices : Option (List JVal) := none

/-- An attribute descriptor: one of `EAVString`, `EAVBoolean`,
`EAVInteger`, `EAVFloat`, `EAVDecimal` with its constraint payload. -/
inductive EAVAttr where
  | string (opts : AttrOpts) (max_length : Option Int)
  | boolean (opts : AttrOpts)
  | integer (opts : AttrOpts) (min_value max_value : Option Int)
  | float (opts : AttrOpts) (min_value max_value : Option Int)
  | decimal (opts : AttrOpts) (max_digits decimal_places : Option Int)
      (min_value max_value : Option Dec)

namespace EAVAttr

/-- The base-constructor options of a descriptor. -/
def opts : EAVAttr → AttrOpts
  | .string o _ => o
  | .boolean o => o
  | .integer o _ _ => o
  | .float o _ _ => o
  | .decimal o _ _ _ _ => o

/-- `self.name`. -/
def name (a : EAVAttr) : Str := a.opts.name

/-- `self.required`. -/
def required (a : EAVAttr) : Bool := a.opts.required

/-- `self.default`. -/
def default (a : EAVAttr) : JVal := a.opts.default

/-- `self.choices`. -/
def choices (a : EAVAttr) : Option (List JVal) := a.opts.choices

/-- `value.name = key` as performed by `EAVSchemaMeta.__new__`. -/
def setName (nm : Str) : EAVAttr → EAVAttr
  | .string o ml => .string { o with name := nm } ml
  | .boolean o => .boolean { o with name := nm }
  | .integer o mn mx => .integer { o with name := nm } mn mx
  | .float o mn mx => .float { o with name := nm } mn mx
  | .decimal o md dp mn mx => .decimal { o with name := nm } md dp mn mx

/-- `_coerce`: per-descriptor type coercion, transcribed from each
subclass's `_coerce` (the base isinstance check for `EAVString`). -/
def coerce (a : EAVAttr) (value : JVal) : Except (List Str) JVal :=
  match a with
  | .string o _ =>
    match value with
    | .str _ => .ok value
    | _ => .error [o.name ++ " must be a string.".data]
  | .boolean o =>
    match value with
    | .bool _ => .ok value
    | _ => .error [o.name ++ " must be a boolean.".data]
  | .integer o _ _ =>
    match value with
    | .bool _ => .error [o.name ++ " must be an integer.".data]
    | .int _ => .ok value
    | _ => .error [o.name ++ " must be an integer.".data]
  | .float o _ _ =>
    match value with
    | .bool _ => .error [o.name ++ " must be a number.".data]
    | .int n => .ok (.float n)
    | .float _ => .ok value
    | _ => .error [o.name ++ " must be a number.".data]
  | .decimal o _ _ _ _ =>
    match value with
    | .bool _ => .error [o.name ++ " must be a decimal.".data]
    | .dec _ => .ok value
    | .int _ | .float _ | .str _ =>
      match decOfChars (pyStr value) with
      | some d => .ok (.dec d)
      | none => .error [o.name ++ " must be a valid decimal.".data]
    | _ => .error [o.name ++ " must be a decimal.".data]

end EAVAttr

/-- `if self.min_value is not None and value < self.min_value: raise`. -/
def checkMin {α} (nm : Str) (lt : α → α → Bool) (shw : α → Str)
    (v : α) (mn : Option α) : Except (List Str) Unit :=
  match mn with
  | some m =>
    if lt v m then .error [nm ++ " must be >= ".data ++ shw m ++ ".".data] else .ok ()
  | none => .ok ()

/-- `if self.max_value is not None and value > self.max_value: raise`. -/
def checkMax {α} (nm : Str) (lt : α → α → Bool) (shw : α → Str)
    (v : α) (mx : Option α) : Except (List Str) Unit :=
  match mx with
  | some m =>
    if lt m v then .error [nm ++ " must be <= ".data ++ shw m ++ ".".data] else .ok ()
  | none => .ok ()

/-- `decimals` in `EAVDecimal._check_constraints`: the number of digits to
the right of the decimal point, `-exponent if exponent < 0 else 0`,
computed from the value's `as_tuple()`. -/
def decimalsOf (d : Dec) : Int := if d.exp < 0 then -d.exp else 0

/-- `whole_digits` in `EAVDecimal._check_constraints`: total significant
digits minus fractional digits (`len(digits) - decimals`). -/
def wholeDigitsOf (d : Dec) : Int := (d.digits.length : Int) - decimalsOf d

/-- The digit-count part of `EAVDecimal._check_constraints`, reached when
`max_digits` or `decimal_places` is set.  Counts come from the value's
`as_tuple()` (`decimalsOf` / `wholeDigitsOf`); `(self.decimal_places or 0)`
equals `dp.getD 0` for every `int | None` (`or` yields `0` exactly when
`decimal_places` is `None` or `0`). -/
def decDigitCheck (nm : Str) (md dp : Option Int) (d : Dec) :
    Except (List Str) Unit :=
  (match dp with
   | some p =>
     if p < decimalsOf d then
       .error [nm ++ " must have at most ".data ++ intStr p ++ " decimal places.".data]
     else .ok ()
   | none => .ok ()) >>= fun _ =>
  match md with
  | some m =>
    if m - dp.getD 0 < wholeDigitsOf d then
      .error [nm ++ " has too many digits (max ".data ++ intStr m ++ ").".data]
    else .ok ()
  | none => .ok ()

namespace EAVAttr

/-- `_check_constraints`: per-descriptor constraint checks. -/
def checkConstraints (a : EAVAttr) (value : JVal) : Except (List Str) Unit :=
  match a with
  | .string o ml =>
    match ml, value with
    | some m, .str s =>
      if m < (s.length : Int) then
        .error [o.name ++ " must be at most ".data ++ intStr m ++ " characters.".data]
      else .ok ()
    | _, _ => .ok ()
  | .boolean _ => .ok ()
  | .integer o mn mx =>
    match value with
    | .int v => checkMin o.name (fun a b => decide (a < b)) intStr v mn >>= fun _ =>
        checkMax o.name (fun a b => decide (a < b)) intStr v mx
    | _ => .ok ()
  | .float o mn mx =>
    match value with
    | .float v => checkMin o.name (fun a b => decide (a < b)) (fun i => intStr i ++ ".0".data) v mn >>= fun _ =>
        checkMax o.name (fun a b => decide (a < b)) (fun i => intStr i ++ ".0".data) v mx
    | _ => .ok ()
  | .decimal o md dp mn mx =>
    match value with
    | .dec d => checkMin o.name decLt decStr d mn >>= fun _ =>
        checkMax o.name decLt decStr d mx >>= fun _ =>
        if md ≠ none ∨ dp ≠ none then decDigitCheck o.name md dp d else .ok ()
    | _ => .ok ()

/-- The choices test at the end of `EAVAttribute.validate`:
`if self.choices is not None and value not in self.choices: raise`
(membership via Python `==`). -/
def choicesStep (nm : Str) : Option (List JVal) → JVal → Except (List Str) JVal
  | some cs, v =>
    if cs.any (fun c => pyEq v c) then .ok v
    else .error [nm ++ " must be one of: ".data ++ joinComma (cs.map pyRepr) ++ ".".data]
  | none, v => .ok v

/-- `EAVAttribute.validate`: absence handling, coercion, constraints,
choices. -/
def validate (a : EAVAttr) (value : JVal) : Except (List Str) JVal :=
  if value.isNull then
    if a.required && a.default.isNull then .error [a.name ++ " is required.".data]
    else .ok a.default
  else
    a.coerce value >>= fun v =>
    a.checkConstraints v >>= fun _ =>
    choicesStep a.name a.choices v

/-- `to_json`: identity, except `EAVDecimal` serializes to `str(value)`
(`None` stays `None`). -/
def to_json (a : EAVAttr) (value : JVal) : JVal :=
  match a with
  | .decimal _ _ _ _ _ =>
    match value with
    | .null => .null
    | .dec d => .str (decStr d)
    | v => .str (pyStr v)
  | _ => value

/-- `from_json`: the base class runs `_coerce` on non-`None` values;
`EAVDecimal` parses `Decimal(str(value))`, falling back to the default on
a malformed string. -/
def from_json (a : EAVAttr) (value : JVal) : Except (List Str) JVal :=
  match a with
  | .decimal o _ _ _ _ =>
    if value.isNull then .ok o.default
    else
      match decOfChars (pyStr value) with
      | some d => .ok (.dec d)
      | none => .ok o.default
  | _ =>
    if value.isNull then .ok a.default
    else a.coerce value

end EAVAttr

/-!
## Schema definitions

Python dicts are ordered association lists; `odAssign` is `d[k] = v`
(replace in place, else append) and `odExtend` is
`d.setdefault(k, []).extend(msgs)`, exactly the two dict operations
`EAVSchema.validate` performs on its `errors` dict.
-/

/-- Association-list lookup (`dict[k]` / `dict.get(k)` support). -/
def alookup {V : Type} : List (Str × V) → Str → Option V
  | [], _ => none
  | (k, v) :: rest, key => if k = key then some v else alookup rest key

/-- Python `d[k] = v` on an ordered dict: replace in place if present,
else append. -/
def odAssign {V : Type} (m : List (Str × V)) (k : Str) (v : V) :
    List (Str × V) :=
  if (alookup m k).isSome then
    m.map (fun p => if p.1 = k then (k, v) else p)
  else m ++ [(k, v)]

/-- Python `d.setdefault(k, []).extend(msgs)`. -/
def odExtend (m : List (Str × List Str)) (k : Str) (msgs : List Str) :
    List (Str × List Str) :=
  if (alookup m k).isSome then
    m.map (fun p => if p.1 = k then (p.1, p.2 ++ msgs) else p)
  else m ++ [(k, msgs)]

/-- `data.get(attr_name)`: the stored value, or `None` when absent. -/
def dget (entries : List (Str × JVal)) (k : Str) : JVal :=
  (alookup entries k).getD .null

/-- A field-keyed error report (`ValidationError.message_dict`). -/
abbrev ErrDict := List (Str × List Str)

/-- A schema definition: the merged attribute set computed at class
definition time, plus the `validate_cross` classmethod (the base class's
hook does nothing; subclasses override it with arbitrary logic that may
raise a field-keyed `ValidationError`). -/
structure Schema where
  attrs : List (Str × EAVAttr)
  cross : List (Str × JVal) → Except ErrDict Unit := fun _ => .ok ()

/-- `dict.update(other)`: fold `odAssign` over `other` in order. -/
def odUpdate {V : Type} (m other : List (Str × V)) : List (Str × V) :=
  other.foldl (fun acc p => odAssign acc p.1 p.2) m

/-- The merged attribute set computed by `EAVSchemaMeta.__new__`: start
from `{}`, `update` with each direct parent's merged set in declaration
order, then assign each directly-declared descriptor (with its `name` set
to its key) in declaration order. -/
def mergedAttrs (parents : List (List (Str × EAVAttr)))
    (own : List (Str × EAVAttr)) : List (Str × EAVAttr) :=
  own.foldl (fun acc p => odAssign acc p.1 (p.2.setName p.1))
    (parents.foldl odUpdate [])

/-- `EAVSchema.get_attributes` (a copy of the merged set; copying is
identity in a pure model). -/
def Schema.get_attributes (sch : Schema) : List (Str × EAVAttr) := sch.attrs

/-- The keys of the input dict that are not declared attributes,
in `sorted` order (`sorted(set(data) - known_keys)`). -/
def unknownKeys (sch : Schema) (entries : List (Str × JVal)) : List Str :=
  sortStrs ((entries.map Prod.fst).filter
    (fun k => decide (k ∉ sch.attrs.map Prod.fst)))

/-- `f"Unknown config key: {key}."`. -/
def unknownMsg (k : Str) : Str :=
  "Unknown config key: ".data ++ k ++ ".".data

/-- The `errors` dict after the unknown-key pass:
`errors[key] = [f"Unknown config key: {key}."]` for each unknown key. -/
def unknownErrors (sch : Schema) (entries : List (Str × JVal)) : ErrDict :=
  (unknownKeys sch entries).foldl (fun errs k => odAssign errs k [unknownMsg k]) []

/-- One iteration of the declared-attribute loop: validate the attribute's
input value; on success store `to_json(cleaned_value)` unless the cleaned
value is `None`; on failure extend the error dict under the attribute
name (attribute descriptors raise list-form `ValidationError`s, so the
`message_dict` branch of the `except` clause is dead code for them). -/
def fieldStep (entries : List (Str × JVal))
    (st : ErrDict × List (Str × JVal)) (p : Str × EAVAttr) :
    ErrDict × List (Str × JVal) :=
  match p.2.validate (dget entries p.1) with
  | .ok v =>
    (st.1, if v.isNull then st.2 else odAssign st.2 p.1 (p.2.to_json v))
  | .error msgs => (odExtend st.1 p.1 msgs, st.2)

/-- The whole field-level pass: unknown-key errors, then the declared
attributes in merged-set order. -/
def fieldPass (sch : Schema) (entries : List (Str × JVal)) :
    ErrDict × List (Str × JVal) :=
  sch.attrs.foldl (fieldStep entries) (unknownErrors sch entries, [])

/-- `EAVSchema.validate`: `None` becomes `{}`; a non-dict fails
structurally under `"__all__"`; otherwise the field-level pass runs, a
non-empty error dict is raised whole, and only then does
`validate_cross` run on the cleaned dict (its own error propagating
unmerged). -/
def Schema.validate (sch : Schema) (data : JVal) :
    Except ErrDict (List (Str × JVal)) :=
  match (if data.isNull then JVal.obj [] else data) with
  | .obj entries =>
    let (errors, cleaned) := fieldPass sch entries
    if errors ≠ [] then .error errors
    else
      match sch.cross cleaned with
      | .error e => .error e
      | .ok _ => .ok cleaned
  | _ => .error [("__all__".data, ["Config must be a dict.".data])]


/-!
## Round-trip lemmas: `decOfChars (decStr d) = some d`
-/

theorem splitSign_minus (t : List Char) : splitSign ('-' :: t) = (true, t) := rfl

theorem splitSign_plus (t : List Char) : splitSign ('+' :: t) = (false, t) := rfl

theorem splitSign_other (c : Char) (t : List Char) (h1 : c ≠ '-') (h2 : c ≠ '+') :
    splitSign (c :: t) = (false, c :: t) := by
  show (if c = '-' then ((true : Bool), t)
    else if c = '+' then (false, t) else (false, c :: t)) = (false, c :: t)
  rw [if_neg h1, if_neg h2]

theorem digitChar_facts (d : Nat) (h : d < 10) :
    isDigitCh (digitChar d) = true ∧ charDigit (digitChar d) = d ∧
      digitChar d ≠ '-' ∧ digitChar d ≠ '+' ∧ digitChar d ≠ '.' ∧
      digitChar d ≠ 'E' ∧ digitChar d ≠ 'e' := by
  interval_cases d <;> exact ⟨rfl, rfl, by decide, by decide, by decide, by decide, by decide⟩

theorem spanDigits_map_append (ds : List Nat) (h : ∀ x ∈ ds, x < 10)
    (r : List Char) (hr : ∀ c, r.head? = some c → isDigitCh c = false) :
    spanDigits (ds.map digitChar ++ r) = (ds, r) := by
  induction ds with
  | nil =>
    simp only [List.map_nil, List.nil_append]
    cases r with
    | nil => rfl
    | cons c t =>
      have := hr c rfl
      simp [spanDigits, this]
  | cons d ds ih =>
    have hd := digitChar_facts d (h d (by simp))
    have ih' := ih (fun x hx => h x (by simp [hx]))
    simp only [List.map_cons, List.cons_append, spanDigits, hd.1, if_true,
      List.append_eq, ih', hd.2.1]

theorem foldl_digits_acc (l : List Nat) :
    ∀ a : Nat, l.foldl (fun a d => 10 * a + d) a = a * 10 ^ l.length + natOfDigitsMSB l := by
  induction l with
  | nil => intro a; simp [natOfDigitsMSB]
  | cons x xs ih =>
    intro a
    simp only [List.foldl_cons, natOfDigitsMSB, List.length_cons]
    rw [ih (10 * a + x), ih (10 * 0 + x)]
    ring

theorem natOfDigitsMSB_cons (x : Nat) (xs : List Nat) :
    natOfDigitsMSB (x :: xs) = x * 10 ^ xs.length + natOfDigitsMSB xs := by
  have := foldl_digits_acc xs x
  simpa [natOfDigitsMSB] using this

theorem natOfDigitsMSB_eq_ofDigits (l : List Nat) :
    natOfDigitsMSB l = Nat.ofDigits 10 l.reverse := by
  induction l with
  | nil => simp [natOfDigitsMSB]
  | cons x xs ih =>
    rw [natOfDigitsMSB_cons, ih]
    simp [List.reverse_cons, Nat.ofDigits_append]
    ring

theorem natDigitsAux_eq (fuel n : Nat) (h : n ≤ fuel) :
    natDigitsAux fuel n = Nat.digits 10 n := by
  induction fuel generalizing n with
  | zero =>
    interval_cases n
    simp [natDigitsAux]
  | succ fuel ih =>
    cases n with
    | zero => simp [natDigitsAux]
    | succ k =>
      rw [natDigitsAux, ih ((k + 1) / 10)
        (by
          have := Nat.div_lt_self (Nat.succ_pos k) (by norm_num : (1 : Nat) < 10)
          omega),
        Nat.digits_def' (by norm_num : (1 : Nat) < 10) (Nat.succ_pos k)]

theorem natDigitsMSB_eq (n : Nat) : natDigitsMSB n = (Nat.digits 10 n).reverse := by
  unfold natDigitsMSB
  rw [natDigitsAux_eq n n le_rfl]

theorem natOfDigitsMSB_natDigitsMSB (n : Nat) :
    natOfDigitsMSB (natDigitsMSB n) = n := by
  rw [natDigitsMSB_eq, natOfDigitsMSB_eq_ofDigits, List.reverse_reverse,
    Nat.ofDigits_digits]

/-- The digit-level content of `natStr`: a non-empty digit list rendering
`n`. -/
theorem natStr_spec (n : Nat) :
    ∃ ds : List Nat, natStr n = ds.map digitChar ∧ (∀ x ∈ ds, x < 10) ∧
      ds ≠ [] ∧ natOfDigitsMSB ds = n := by
  by_cases h : n = 0
  · exact ⟨[0], by simp [natStr, h, digitChar], by simp, by simp,
      by simp [natOfDigitsMSB, h]⟩
  · refine ⟨natDigitsMSB n, by simp [natStr, h], ?_, ?_, natOfDigitsMSB_natDigitsMSB n⟩
    · intro x hx
      exact Nat.digits_lt_base (by norm_num) (by simpa [natDigitsMSB_eq] using hx)
    · rw [natDigitsMSB_eq]
      simp only [ne_eq, List.reverse_eq_nil_iff]
      exact Nat.digits_ne_nil_iff_ne_zero.mpr h

theorem canonDigits_eq_self (l : List Nat) (h1 : l ≠ [])
    (h2 : l.head? = some 0 → l = [0]) : canonDigits l = l := by
  cases l with
  | nil => exact absurd rfl h1
  | cons x t =>
    by_cases hx : x = 0
    · subst hx
      have := h2 rfl
      rw [this]
      rfl
    · simp [canonDigits, List.dropWhile_cons, hx]

theorem canonDigits_replicate_append (k : Nat) (l : List Nat) (h1 : l ≠ [])
    (h2 : l.head? = some 0 → l = [0]) :
    canonDigits (List.replicate k 0 ++ l) = l := by
  induction k with
  | zero => simpa using canonDigits_eq_self l h1 h2
  | succ k ih =>
    simp only [List.replicate_succ, List.cons_append, canonDigits,
      List.dropWhile_cons, if_pos rfl] at *
    exact ih

/-- Parsing the serialized exponent: for `k ≠ 0`,
`decExpTail` on `intSignedStr k` recovers `k`. -/
theorem decExpTail_intSignedStr (sg : Bool) (alldigits : List Nat)
    (fplen : Nat) (k : Int) (hk : k ≠ 0) :
    decExpTail sg alldigits fplen (intSignedStr k) =
      some ⟨sg, canonDigits alldigits, k - fplen⟩ := by
  obtain ⟨ds, hds, hlt, hne, hval⟩ := natStr_spec k.natAbs
  have hspan : spanDigits (ds.map digitChar ++ []) = (ds, []) :=
    spanDigits_map_append ds hlt [] (by intro c hc; simp at hc)
  rw [List.append_nil] at hspan
  by_cases hneg : k < 0
  · have hs : intSignedStr k = '-' :: natStr k.natAbs := by simp [intSignedStr, hneg]
    rw [hs, hds]
    simp only [decExpTail, splitSign_minus, hspan]
    rw [if_neg (by simp [hne])]
    simp [hval]
    rw [abs_of_neg hneg]
    ring
  · have hpos : 0 < k := by omega
    have hs : intSignedStr k = '+' :: natStr k.natAbs := by simp [intSignedStr, hneg]
    rw [hs, hds]
    simp only [decExpTail, splitSign_plus, hspan]
    rw [if_neg (by simp [hne])]
    simp [hval]
    omega

theorem fracStage_dot (ip : List Nat) (r : List Char) :
    fracStage (ip, '.' :: r) = spanDigits r := by
  show (if ('.' : Char) = '.' then spanDigits r else ([], '.' :: r)) = spanDigits r
  rw [if_pos rfl]

theorem fracStage_nil (ip : List Nat) : fracStage (ip, []) = ([], []) := rfl

theorem fracStage_other (ip : List Nat) (c : Char) (r : List Char)
    (h : c ≠ '.') : fracStage (ip, c :: r) = ([], c :: r) := by
  show (if c = '.' then spanDigits r else ([], c :: r)) = ([], c :: r)
  rw [if_neg h]

theorem finStage_end (sg : Bool) (ip fp : List Nat)
    (h : ¬(ip = [] ∧ fp = [])) :
    finStage sg ip (fp, []) =
      some ⟨sg, canonDigits (ip ++ fp), -(fp.length : Int)⟩ := by
  unfold finStage
  rw [if_neg h]

theorem finStage_exp (sg : Bool) (ip fp : List Nat) (r : List Char)
    (h : ¬(ip = [] ∧ fp = [])) :
    finStage sg ip (fp, 'E' :: r) = decExpTail sg (ip ++ fp) fp.length r := by
  unfold finStage
  rw [if_neg h]
  show (if ('E' : Char) = 'E' ∨ ('E' : Char) = 'e' then
    decExpTail sg (ip ++ fp) fp.length r else none) = _
  rw [if_pos (Or.inl rfl)]

/-- Shape `0.00…0ddd` (no exponent): `dotplace ≤ 0`. -/
theorem decAfterSign_frac (s : Bool) (z : Nat) (ds : List Nat)
    (hlt : ∀ x ∈ ds, x < 10) (hne : ds ≠ [])
    (hlead : ds.head? = some 0 → ds = [0]) :
    decAfterSign s ('0' :: '.' :: (List.replicate z '0' ++ ds.map digitChar)) =
      some ⟨s, ds, -((z : Int) + ds.length)⟩ := by
  have hrep : List.replicate z '0' ++ ds.map digitChar
      = (List.replicate z 0 ++ ds).map digitChar := by
    rw [List.map_append, List.map_replicate]
    rfl
  have hlt' : ∀ x ∈ List.replicate z 0 ++ ds, x < 10 := by
    intro x hx
    rcases List.mem_append.mp hx with h | h
    · have := List.eq_of_mem_replicate h
      omega
    · exact hlt x h
  have h1 : spanDigits (List.replicate z '0' ++ ds.map digitChar) =
      (List.replicate z 0 ++ ds, []) := by
    rw [hrep]
    have := spanDigits_map_append _ hlt' [] (by intro c hc; simp at hc)
    rwa [List.append_nil] at this
  have h0 : spanDigits ('0' :: '.' :: (List.replicate z '0' ++ ds.map digitChar)) =
      ([0], '.' :: (List.replicate z '0' ++ ds.map digitChar)) := by
    have := spanDigits_map_append [0] (by simp)
      ('.' :: (List.replicate z '0' ++ ds.map digitChar))
      (by intro c hc; simp at hc; subst hc; decide)
    simpa [digitChar] using this
  rw [decAfterSign, h0]
  simp only [fracStage_dot, h1]
  rw [finStage_end s [0] _ (by simp)]
  have hcanon : canonDigits ([0] ++ (List.replicate z 0 ++ ds)) = ds := by
    have hrw : [0] ++ (List.replicate z 0 ++ ds) = List.replicate (z + 1) 0 ++ ds := by
      rw [List.replicate_succ]
      simp
    rw [hrw]
    exact canonDigits_replicate_append (z + 1) ds hne hlead
  rw [hcanon]
  simp only [Option.some.injEq, Dec.mk.injEq, true_and]
  simp only [List.length_append, List.length_replicate]
  push_cast
  ring

/-- Shape `ddd` (integer, no dot, no exponent): `dotplace = n`. -/
theorem decAfterSign_intOnly (s : Bool) (ds : List Nat)
    (hlt : ∀ x ∈ ds, x < 10) (hne : ds ≠ [])
    (hlead : ds.head? = some 0 → ds = [0]) :
    decAfterSign s (ds.map digitChar) = some ⟨s, ds, 0⟩ := by
  have h1 : spanDigits (ds.map digitChar) = (ds, []) := by
    have := spanDigits_map_append _ hlt [] (by intro c hc; simp at hc)
    rwa [List.append_nil] at this
  rw [decAfterSign, h1]
  simp only [fracStage_nil]
  rw [finStage_end s ds [] (by simp [hne])]
  rw [List.append_nil, canonDigits_eq_self ds hne hlead]
  simp

/-- Shape `d.dd…d` (dot, no exponent): `0 < dotplace < n`. -/
theorem decAfterSign_dotted (s : Bool) (k : Nat) (ds : List Nat)
    (hlt : ∀ x ∈ ds, x < 10) (hne : ds ≠ [])
    (hlead : ds.head? = some 0 → ds = [0]) (hk0 : 0 < k) (hk : k < ds.length) :
    decAfterSign s ((ds.map digitChar).take k ++
        ('.' :: (ds.map digitChar).drop k)) =
      some ⟨s, ds, (k : Int) - ds.length⟩ := by
  have hdrop : spanDigits ((ds.map digitChar).drop k) = (ds.drop k, []) := by
    rw [← List.map_drop]
    have := spanDigits_map_append (ds.drop k)
      (fun x hx => hlt x (List.mem_of_mem_drop hx)) [] (by intro c hc; simp at hc)
    rwa [List.append_nil] at this
  have htake : spanDigits ((ds.map digitChar).take k ++
      ('.' :: (ds.map digitChar).drop k)) =
      (ds.take k, '.' :: (ds.map digitChar).drop k) := by
    rw [← List.map_take]
    exact spanDigits_map_append _ (fun x hx => hlt x (List.mem_of_mem_take hx)) _
      (by intro c hc; simp at hc; subst hc; decide)
  rw [decAfterSign, htake]
  simp only [fracStage_dot, hdrop]
  rw [finStage_end s _ _
    (by simp [List.take_eq_nil_iff, hne, Nat.pos_iff_ne_zero.mp hk0])]
  rw [List.take_append_drop, canonDigits_eq_self ds hne hlead]
  simp only [Option.some.injEq, Dec.mk.injEq, true_and]
  simp only [List.length_drop]
  omega

/-- Shape `dddE±k` (integer part then exponent): scientific with `n ≤ 1`. -/
theorem decAfterSign_intExp (s : Bool) (ds : List Nat) (e : Int) (he : e ≠ 0)
    (hlt : ∀ x ∈ ds, x < 10) (hne : ds ≠ [])
    (hlead : ds.head? = some 0 → ds = [0]) :
    decAfterSign s (ds.map digitChar ++ 'E' :: intSignedStr e) =
      some ⟨s, ds, e⟩ := by
  have h1 : spanDigits (ds.map digitChar ++ 'E' :: intSignedStr e) =
      (ds, 'E' :: intSignedStr e) :=
    spanDigits_map_append _ hlt _ (by intro c hc; simp at hc; subst hc; decide)
  rw [decAfterSign, h1]
  rw [fracStage_other _ _ _ (by decide)]
  rw [finStage_exp s ds [] _ (by simp [hne])]
  rw [List.append_nil, List.length_nil]
  rw [decExpTail_intSignedStr s ds 0 e he]
  rw [canonDigits_eq_self ds hne hlead]
  simp

/-- Shape `d.dd…dE±k` (dot and exponent): scientific with `1 < n`. -/
theorem decAfterSign_dottedExp (s : Bool) (k : Nat) (ds : List Nat) (e : Int)
    (he : e ≠ 0) (hlt : ∀ x ∈ ds, x < 10) (hne : ds ≠ [])
    (hlead : ds.head? = some 0 → ds = [0]) (hk0 : 0 < k) (hk : k < ds.length) :
    decAfterSign s ((ds.map digitChar).take k ++
        ('.' :: ((ds.map digitChar).drop k ++ 'E' :: intSignedStr e))) =
      some ⟨s, ds, e - ((ds.length : Int) - k)⟩ := by
  have hdrop : spanDigits ((ds.map digitChar).drop k ++ 'E' :: intSignedStr e) =
      (ds.drop k, 'E' :: intSignedStr e) := by
    rw [← List.map_drop]
    exact spanDigits_map_append _ (fun x hx => hlt x (List.mem_of_mem_drop hx)) _
      (by intro c hc; simp at hc; subst hc; decide)
  have htake : spanDigits ((ds.map digitChar).take k ++
      ('.' :: ((ds.map digitChar).drop k ++ 'E' :: intSignedStr e))) =
      (ds.take k, '.' :: ((ds.map digitChar).drop k ++ 'E' :: intSignedStr e)) := by
    rw [← List.map_take]
    exact spanDigits_map_append _ (fun x hx => hlt x (List.mem_of_mem_take hx)) _
      (by intro c hc; simp at hc; subst hc; decide)
  rw [decAfterSign, htake]
  simp only [fracStage_dot, hdrop]
  rw [finStage_exp s _ _ _
    (by simp [List.take_eq_nil_iff, hne, Nat.pos_iff_ne_zero.mp hk0])]
  rw [List.take_append_drop]
  rw [decExpTail_intSignedStr s ds (ds.drop k).length e he]
  rw [canonDigits_eq_self ds hne hlead]
  simp only [Option.some.injEq, Dec.mk.injEq, true_and]
  simp only [List.length_drop]
  omega

theorem decOfChars_eq_afterSign (s : Bool) (body : List Char)
    (hb : splitSign body = (false, body)) :
    decOfChars ((if s then ['-'] else []) ++ body) = decAfterSign s body := by
  cases s
  · simp only [Bool.false_eq_true, if_false, List.nil_append, decOfChars, hb]
  · simp only [if_true, List.singleton_append, decOfChars, splitSign_minus]

theorem splitSign_of_digit (c : Char) (t : List Char) (h : isDigitCh c = true) :
    splitSign (c :: t) = (false, c :: t) := by
  refine splitSign_other c t ?_ ?_
  · intro he
    rw [he] at h
    exact absurd h (by decide)
  · intro he
    rw [he] at h
    exact absurd h (by decide)

/-- The round-trip law for Python decimals: parsing `str(d)` recovers the
exact internal representation `(sign, digits, exponent)` of `d`, for every
well-formed finite decimal. -/
theorem decOfChars_decStr (d : Dec) (h : d.WF) : decOfChars (decStr d) = some d := by
  obtain ⟨sgn, digs, e⟩ := d
  obtain ⟨hne, hlt, hlead⟩ := h
  obtain ⟨d0, t, hds⟩ : ∃ d0 t, digs = d0 :: t := by
    cases digs with
    | nil => exact absurd rfl hne
    | cons a l => exact ⟨a, l, rfl⟩
  subst hds
  have hd0 : d0 < 10 := hlt d0 (by simp)
  have hd0c := digitChar_facts d0 hd0
  by_cases hsci : e ≤ 0 ∧ -6 < e + ((d0 :: t).length : Int)
  · by_cases hL0 : e + ((d0 :: t).length : Int) ≤ 0
    · -- `0.00…0ddd`
      have hshape : decStr ⟨sgn, d0 :: t, e⟩ = (if sgn then ['-'] else []) ++
          ('0' :: '.' :: (List.replicate (-(e + ((d0 :: t).length : Int))).toNat '0'
            ++ (d0 :: t).map digitChar)) := by
        simp only [decStr]
        rw [if_pos hsci, if_pos hL0, if_pos hL0, if_pos rfl]
        simp
      rw [hshape, decOfChars_eq_afterSign _ _ (splitSign_of_digit '0' _ (by decide)),
        decAfterSign_frac _ _ _ hlt hne hlead]
      simp only [Option.some.injEq, Dec.mk.injEq, true_and]
      have hz : ((-(e + ((d0 :: t).length : Int))).toNat : Int) =
          -(e + ((d0 :: t).length : Int)) := Int.toNat_of_nonneg (by omega)
      omega
    · by_cases hLn : ((d0 :: t).length : Int) ≤ e + ((d0 :: t).length : Int)
      · -- `ddd` (here `e = 0`)
        have hexp : e = 0 := by omega
        subst hexp
        have hshape : decStr ⟨sgn, d0 :: t, 0⟩ = (if sgn then ['-'] else []) ++
            (d0 :: t).map digitChar := by
          simp only [decStr]
          rw [if_pos hsci, if_neg hL0, if_pos hLn, if_neg hL0, if_pos hLn, if_pos rfl]
          simp
        rw [hshape, List.map_cons,
          decOfChars_eq_afterSign _ _ (splitSign_of_digit _ _ hd0c.1), ← List.map_cons,
          decAfterSign_intOnly _ _ hlt hne hlead]
      · -- `d.dd…d` (`dotplace = e + n`, `0 < dotplace < n`)
        have hk0 : (0 : Int) < e + ((d0 :: t).length : Int) := by omega
        have hshape : decStr ⟨sgn, d0 :: t, e⟩ = (if sgn then ['-'] else []) ++
            (((d0 :: t).map digitChar).take (e + ((d0 :: t).length : Int)).toNat ++
              ('.' :: ((d0 :: t).map digitChar).drop
                (e + ((d0 :: t).length : Int)).toNat)) := by
          simp only [decStr]
          rw [if_pos hsci, if_neg hL0, if_neg hLn, if_neg hL0, if_neg hLn, if_pos rfl]
          simp
        obtain ⟨k', hk'⟩ : ∃ k', (e + ((d0 :: t).length : Int)).toNat = k' + 1 := by
          refine ⟨(e + ((d0 :: t).length : Int)).toNat - 1, ?_⟩
          omega
        have htk : ((d0 :: t).map digitChar).take (e + ((d0 :: t).length : Int)).toNat
            = digitChar d0 :: (t.map digitChar).take k' := by
          rw [List.map_cons, hk', List.take_succ_cons]
        rw [hshape, htk, List.cons_append,
          decOfChars_eq_afterSign _ _ (splitSign_of_digit _ _ hd0c.1), ← List.cons_append,
          ← htk, decAfterSign_dotted _ _ _ hlt hne hlead (by omega) (by simp; omega)]
        simp only [Option.some.injEq, Dec.mk.injEq, true_and]
        have hz := Int.toNat_of_nonneg (le_of_lt hk0)
        omega
  · -- scientific notation, `dotplace = 1`
    have hLne1 : e + ((d0 :: t).length : Int) ≠ 1 := by
      rcases not_and_or.mp hsci with h1 | h2
      · intro hL1
        simp at hL1 h1
        omega
      · intro hL1
        simp at hL1 h2
        omega
    have hK : e + ((d0 :: t).length : Int) - 1 ≠ 0 := fun hc => hLne1 (by omega)
    by_cases hn : ((d0 :: t).length : Int) ≤ 1
    · -- single digit: `dE±k`
      have ht : t = [] := by
        rcases t with _ | ⟨a, l⟩
        · rfl
        · exfalso
          simp only [List.length_cons] at hn
          push_cast at hn
          omega
      subst ht
      have hshape : decStr ⟨sgn, [d0], e⟩ = (if sgn then ['-'] else []) ++
          ([d0].map digitChar ++
            'E' :: intSignedStr (e + (([d0] : List Nat).length : Int) - 1)) := by
        simp only [decStr]
        rw [if_neg hsci, if_neg (by omega : ¬ (1 : Int) ≤ 0), if_pos hn,
          if_neg (by omega : ¬ (1 : Int) ≤ 0), if_pos hn, if_neg hLne1]
        simp
      rw [hshape, List.map_cons, List.cons_append,
        decOfChars_eq_afterSign _ _ (splitSign_of_digit _ _ hd0c.1), ← List.cons_append,
        ← List.map_cons,
        decAfterSign_intExp _ _ _ hK hlt hne hlead]
      simp only [Option.some.injEq, Dec.mk.injEq, true_and]
      simp
    · -- several digits: `d.dd…dE±k`
      have hshape : decStr ⟨sgn, d0 :: t, e⟩ = (if sgn then ['-'] else []) ++
          (((d0 :: t).map digitChar).take 1 ++
            ('.' :: (((d0 :: t).map digitChar).drop 1 ++
              'E' :: intSignedStr (e + ((d0 :: t).length : Int) - 1)))) := by
        simp only [decStr]
        rw [if_neg hsci, if_neg (by omega : ¬ (1 : Int) ≤ 0), if_neg hn,
          if_neg (by omega : ¬ (1 : Int) ≤ 0), if_neg hn, if_neg hLne1]
        simp
      have htk : ((d0 :: t).map digitChar).take 1 = [digitChar d0] := by
        rw [List.map_cons]
        rfl
      rw [hshape, htk, List.singleton_append,
        decOfChars_eq_afterSign _ _ (splitSign_of_digit _ _ hd0c.1),
        ← List.singleton_append, ← htk,
        decAfterSign_dottedExp _ _ _ _ hK hlt hne hlead (by omega)
          (by simp only [List.length_cons] at hn ⊢; push_cast at hn; omega)]
      simp only [Option.some.injEq, Dec.mk.injEq, true_and]
      omega

/-!
## Parsed decimals are well-formed

`decOfChars` only ever builds coefficients through `canonDigits` over
digit runs, so every parsed decimal satisfies `Dec.WF` — the invariant the
Python `Decimal` constructor maintains.
-/

theorem charDigit_lt (c : Char) (h : isDigitCh c = true) : charDigit c < 10 := by
  unfold isDigitCh at h
  simp only [Bool.and_eq_true, decide_eq_true_eq] at h
  unfold charDigit
  omega

theorem spanDigits_lt (cs : List Char) : ∀ x ∈ (spanDigits cs).1, x < 10 := by
  induction cs with
  | nil => simp [spanDigits]
  | cons c rest ih =>
    by_cases hc : isDigitCh c
    · simp only [spanDigits, hc, if_true]
      intro x hx
      rcases List.mem_cons.mp hx with rfl | hx
      · exact charDigit_lt c hc
      · exact ih x hx
    · simp [spanDigits, hc]

theorem dropWhile_head_not {p : Nat → Bool} (l : List Nat) (a : Nat) (as : List Nat)
    (h : l.dropWhile p = a :: as) : p a = false := by
  induction l with
  | nil => simp [List.dropWhile] at h
  | cons x xs ih =>
    rw [List.dropWhile_cons] at h
    by_cases hx : p x
    · rw [if_pos hx] at h
      exact ih h
    · rw [if_neg hx] at h
      obtain ⟨rfl, _⟩ : x = a ∧ xs = as := by
        injection h with h1 h2
        exact ⟨h1, h2⟩
      simpa using hx

theorem canonDigits_WF (l : List Nat) (h : ∀ x ∈ l, x < 10) :
    canonDigits l ≠ [] ∧ (∀ x ∈ canonDigits l, x < 10) ∧
      ((canonDigits l).head? = some 0 → canonDigits l = [0]) := by
  unfold canonDigits
  cases hd : l.dropWhile (· = 0) with
  | nil => exact ⟨by simp, by simp, fun _ => rfl⟩
  | cons a as =>
    have ha : a ≠ 0 := by
      have := dropWhile_head_not l a as hd
      simpa using this
    refine ⟨by simp, ?_, ?_⟩
    · intro x hx
      have hsub : a :: as ⊆ l := by
        rw [← hd]
        exact (List.dropWhile_sublist _).subset
      exact h x (hsub hx)
    · intro hhd
      simp at hhd
      exact absurd hhd ha

theorem decExpTail_WF (sg : Bool) (alldigits : List Nat) (fplen : Nat)
    (r : List Char) (dd : Dec) (hall : ∀ x ∈ alldigits, x < 10)
    (h : decExpTail sg alldigits fplen r = some dd) : dd.WF := by
  simp only [decExpTail] at h
  split at h
  · exact absurd h (by simp)
  · obtain rfl : (⟨sg, canonDigits alldigits, _⟩ : Dec) = dd := by
      injection h
    obtain ⟨h1, h2, h3⟩ := canonDigits_WF alldigits hall
    exact ⟨h1, h2, h3⟩

theorem decAfterSign_WF (s : Bool) (cs1 : List Char) (dd : Dec)
    (h : decAfterSign s cs1 = some dd) : dd.WF := by
  have hip : ∀ x ∈ (spanDigits cs1).1, x < 10 := spanDigits_lt cs1
  have hfr : ∀ x ∈ (fracStage (spanDigits cs1)).1, x < 10 := by
    unfold fracStage
    cases hc : (spanDigits cs1).2 with
    | nil => simp
    | cons c r =>
      by_cases hdot : c = '.'
      · simp only [if_pos hdot]
        exact spanDigits_lt r
      · simp [if_neg hdot]
  have hall : ∀ x ∈ (spanDigits cs1).1 ++ (fracStage (spanDigits cs1)).1, x < 10 := by
    intro x hx
    rcases List.mem_append.mp hx with hx | hx
    · exact hip x hx
    · exact hfr x hx
  unfold decAfterSign finStage at h
  split at h
  · exact absurd h (by simp)
  · split at h
    · obtain rfl : (⟨s, canonDigits _, _⟩ : Dec) = dd := by
        injection h
      obtain ⟨h1, h2, h3⟩ := canonDigits_WF _ hall
      exact ⟨h1, h2, h3⟩
    · split at h
      · exact decExpTail_WF _ _ _ _ _ hall h
      · exact absurd h (by simp)

theorem decOfChars_WF (cs : List Char) (dd : Dec)
    (h : decOfChars cs = some dd) : dd.WF :=
  decAfterSign_WF _ _ _ h

/-!
## Attribute-level lemmas
-/

/-- Is this descriptor the Decimal one? -/
def EAVAttr.isDecimal : EAVAttr → Bool
  | .decimal _ _ _ _ _ => true
  | _ => false

/-- A successful `validate` on a supplied (non-`None`) value factors
through `_coerce`, a passing `_check_constraints`, and a passing choices
test, with the cleaned value being the coercion result. -/
theorem validate_ok_parts (a : EAVAttr) (v w : JVal)
    (hv : v.isNull = false) (h : a.validate v = .ok w) :
    a.coerce v = .ok w ∧ a.checkConstraints w = .ok () ∧
      (∀ cs, a.choices = some cs → cs.any (fun c => pyEq w c) = true) := by
  unfold EAVAttr.validate at h
  rw [hv] at h
  simp only [Bool.false_eq_true, if_false] at h
  cases hc : a.coerce v with
  | error msgs =>
    rw [hc] at h
    simp [Bind.bind, Except.bind] at h
  | ok u =>
    rw [hc] at h
    simp only [Bind.bind, Except.bind] at h
    cases hk : a.checkConstraints u with
    | error m =>
      rw [hk] at h
      simp at h
    | ok un =>
      rw [hk] at h
      simp only [Bind.bind, Except.bind] at h
      cases hch : a.choices with
      | none =>
        rw [hch] at h
        simp only [EAVAttr.choicesStep, Except.ok.injEq] at h
        subst h
        exact ⟨rfl, hk, fun cs hcs => absurd hcs (by simp)⟩
      | some cs =>
        rw [hch] at h
        simp only [EAVAttr.choicesStep] at h
        split at h
        · simp only [Except.ok.injEq] at h
          subst h
          refine ⟨rfl, hk, fun cs' hcs' => ?_⟩
          injection hcs' with hcs'
          subst hcs'
          assumption
        · exact absurd h (by simp)

/-- Conversely, coercion plus passing constraints and choices give a
successful `validate`. -/
theorem validate_ok_of_parts (a : EAVAttr) (v w : JVal)
    (hv : v.isNull = false) (hc : a.coerce v = .ok w)
    (hk : a.checkConstraints w = .ok ())
    (hch : ∀ cs, a.choices = some cs → cs.any (fun c => pyEq w c) = true) :
    a.validate v = .ok w := by
  unfold EAVAttr.validate
  rw [hv]
  simp only [Bool.false_eq_true, if_false, hc, Bind.bind, Except.bind, hk]
  cases hcs : a.choices with
  | none => simp [EAVAttr.choicesStep]
  | some cs =>
    simp only [EAVAttr.choicesStep]
    rw [if_pos (hch cs hcs)]

/-- For the Decimal descriptor and a well-formed decimal value:
serializing to the exact string and re-reading it (by `_coerce` or by
`from_json`) restores the value. -/
theorem dec_tojson_reval (o : AttrOpts) (md dp : Option Int)
    (mn mx : Option Dec) (dd : Dec) (h : dd.WF) :
    ((EAVAttr.decimal o md dp mn mx).to_json (.dec dd)).isNull = false ∧
      (EAVAttr.decimal o md dp mn mx).coerce
        ((EAVAttr.decimal o md dp mn mx).to_json (.dec dd)) = .ok (.dec dd) ∧
      (EAVAttr.decimal o md dp mn mx).from_json
        ((EAVAttr.decimal o md dp mn mx).to_json (.dec dd)) = .ok (.dec dd) := by
  have hparse : decOfChars (pyStr (.str (decStr dd))) = some dd := by
    show decOfChars (decStr dd) = some dd
    exact decOfChars_decStr dd h
  refine ⟨rfl, ?_, ?_⟩
  · show (EAVAttr.decimal o md dp mn mx).coerce (.str (decStr dd)) = .ok (.dec dd)
    unfold EAVAttr.coerce
    rw [hparse]
  · show (EAVAttr.decimal o md dp mn mx).from_json (.str (decStr dd)) = .ok (.dec dd)
    unfold EAVAttr.from_json
    rw [hparse]
    rfl

/-- Serialization/round-trip behaviour of every descriptor on a coerced
value: `to_json w` is non-null, re-coercing it gives back `w`, and
`from_json (to_json w) = w`.  The decimal hypothesis (`v`'s payload is a
canonical `Decimal`) is the invariant Python's constructor maintains. -/
theorem tojson_reval (a : EAVAttr) (v w : JVal)
    (hWFv : ∀ dd, v = .dec dd → dd.WF) (hc : a.coerce v = .ok w) :
    (a.to_json w).isNull = false ∧ a.coerce (a.to_json w) = .ok w ∧
      a.from_json (a.to_json w) = .ok w := by
  cases a with
  | string o ml =>
    cases v with
    | str s =>
      simp only [EAVAttr.coerce, Except.ok.injEq] at hc
      subst hc
      exact ⟨rfl, rfl, rfl⟩
    | null => simp [EAVAttr.coerce] at hc
    | bool b => simp [EAVAttr.coerce] at hc
    | int n => simp [EAVAttr.coerce] at hc
    | float x => simp [EAVAttr.coerce] at hc
    | dec dd => simp [EAVAttr.coerce] at hc
    | arr xs => simp [EAVAttr.coerce] at hc
    | obj kvs => simp [EAVAttr.coerce] at hc
  | boolean o =>
    cases v with
    | bool b =>
      simp only [EAVAttr.coerce, Except.ok.injEq] at hc
      subst hc
      exact ⟨rfl, rfl, rfl⟩
    | null => simp [EAVAttr.coerce] at hc
    | str s => simp [EAVAttr.coerce] at hc
    | int n => simp [EAVAttr.coerce] at hc
    | float x => simp [EAVAttr.coerce] at hc
    | dec dd => simp [EAVAttr.coerce] at hc
    | arr xs => simp [EAVAttr.coerce] at hc
    | obj kvs => simp [EAVAttr.coerce] at hc
  | integer o mn mx =>
    cases v with
    | int n =>
      simp only [EAVAttr.coerce, Except.ok.injEq] at hc
      subst hc
      exact ⟨rfl, rfl, rfl⟩
    | null => simp [EAVAttr.coerce] at hc
    | str s => simp [EAVAttr.coerce] at hc
    | bool b => simp [EAVAttr.coerce] at hc
    | float x => simp [EAVAttr.coerce] at hc
    | dec dd => simp [EAVAttr.coerce] at hc
    | arr xs => simp [EAVAttr.coerce] at hc
    | obj kvs => simp [EAVAttr.coerce] at hc
  | float o mn mx =>
    cases v with
    | int n =>
      simp only [EAVAttr.coerce, Except.ok.injEq] at hc
      subst hc
      exact ⟨rfl, rfl, rfl⟩
    | float x =>
      simp only [EAVAttr.coerce, Except.ok.injEq] at hc
      subst hc
      exact ⟨rfl, rfl, rfl⟩
    | null => simp [EAVAttr.coerce] at hc
    | str s => simp [EAVAttr.coerce] at hc
    | bool b => simp [EAVAttr.coerce] at hc
    | dec dd => simp [EAVAttr.coerce] at hc
    | arr xs => simp [EAVAttr.coerce] at hc
    | obj kvs => simp [EAVAttr.coerce] at hc
  | decimal o md dp mn mx =>
    cases v with
    | dec dd =>
      simp only [EAVAttr.coerce, Except.ok.injEq] at hc
      subst hc
      exact dec_tojson_reval o md dp mn mx dd (hWFv dd rfl)
    | str s =>
      simp only [EAVAttr.coerce] at hc
      cases hp : decOfChars (pyStr (.str s)) with
      | none => rw [hp] at hc; simp at hc
      | some dd =>
        rw [hp] at hc
        simp only [Except.ok.injEq] at hc
        subst hc
        exact dec_tojson_reval o md dp mn mx dd (decOfChars_WF _ _ hp)
    | int n =>
      simp only [EAVAttr.coerce] at hc
      cases hp : decOfChars (pyStr (.int n)) with
      | none => rw [hp] at hc; simp at hc
      | some dd =>
        rw [hp] at hc
        simp only [Except.ok.injEq] at hc
        subst hc
        exact dec_tojson_reval o md dp mn mx dd (decOfChars_WF _ _ hp)
    | float x =>
      simp only [EAVAttr.coerce] at hc
      cases hp : decOfChars (pyStr (.float x)) with
      | none => rw [hp] at hc; simp at hc
      | some dd =>
        rw [hp] at hc
        simp only [Except.ok.injEq] at hc
        subst hc
        exact dec_tojson_reval o md dp mn mx dd (decOfChars_WF _ _ hp)
    | null => simp [EAVAttr.coerce] at hc
    | bool b => simp [EAVAttr.coerce] at hc
    | arr xs => simp [EAVAttr.coerce] at hc
    | obj kvs => simp [EAVAttr.coerce] at hc

/-!
## Claims C2, C7, C3
-/

/-!
## The full `Decimal` domain: `PyDec`

`Dec` covers the finite decimals, which is the whole decimal payload the
schema layer stores in `JVal`.  The `Decimal` constructor accepts more:
`Decimal(str(value))` in `EAVDecimal._coerce` and `from_json` also
parses the `Infinity`/`NaN` spellings (case-insensitively, after
`str.strip()` and underscore removal), so an unconstrained `EAVDecimal`
accepts special values — `Decimal("NaN")` raises no `InvalidOperation`,
and with `min_value`/`max_value`/`max_digits`/`decimal_places`/`choices`
all `None` both `_check_constraints` and the choices test are skipped
entirely, so `validate` reduces to `_coerce`.  `PyDec` is the full
domain and `decimalCoerce`/`decimalToJson`/`decimalFromJson` transcribe
the `EAVDecimal` methods over it.  (With a bound or digit limit set, a
special value would raise an uncaught `InvalidOperation`/`TypeError`
inside `_check_constraints` — a crash, not a `ValidationError`; no claim
reaches that path.)
-/

/-- A Python `Decimal`: finite (`as_tuple` form), an infinity, or a
(possibly signaling) `NaN` carrying its diagnostic digits. -/
inductive PyDec where
  | fin (d : Dec)
  | inf (sign : Bool)
  | nan (sign : Bool) (signaling : Bool) (diag : List Nat)
deriving DecidableEq, Repr

/-- The whitespace stripped by `str.strip()` (ASCII cases). -/
def isPySpace (c : Char) : Bool :=
  c = ' ' || c = '\t' || c = '\n' || c = '\r' || c = '\x0b' || c = '\x0c'

/-- `value.strip()`. -/
def pyStrip (s : Str) : Str :=
  ((s.dropWhile isPySpace).reverse.dropWhile isPySpace).reverse

/-- `.replace("_", "")`. -/
def stripUnderscores (s : Str) : Str := s.filter (fun c => c != '_')

/-- `re.IGNORECASE` match of `c` against the lowercase letter `w`. -/
def ciEq (c w : Char) : Bool := c.toNat == w.toNat || c.toNat == w.toNat - 32

/-- Case-insensitive equality with a lowercase word. -/
def ciWord (cs w : List Char) : Bool :=
  cs.length == w.length && (cs.zip w).all (fun p => ciEq p.1 p.2)

/-- `str(int(diag or '0')).lstrip('0')`: the canonical NaN diagnostic
kept by the `Decimal` constructor (leading zeros dropped, possibly
leaving nothing). -/
def canonNaNDiag (l : List Nat) : List Nat := l.dropWhile (· = 0)

/-- The `Inf(inity)? | s?NaN digits*` alternatives of the `_pydecimal`
parsing grammar (the branches `decOfChars` does not cover), applied to
the input after the optional sign. -/
def pyDecSpecial (sign : Bool) (cs : List Char) : Option PyDec :=
  if ciWord cs "inf".data || ciWord cs "infinity".data then some (.inf sign)
  else
    let sg : Bool :=
      match cs with
      | c :: _ => ciEq c 's'
      | [] => false
    match (if sg then cs.drop 1 else cs) with
    | a :: b :: c :: t =>
      if ciEq a 'n' && ciEq b 'a' && ciEq c 'n' && t.all isDigitCh then
        some (.nan sign sg (canonNaNDiag (t.map charDigit)))
      else none
    | _ => none

/-- `Decimal(string)`: the full `_pydecimal` construction from a string —
strip, drop underscores, optional sign, then either the finite
numeric-string grammar (`decOfChars`) or a special value. -/
def pyDecOfChars (cs0 : List Char) : Option PyDec :=
  match decOfChars (stripUnderscores (pyStrip cs0)) with
  | some d => some (.fin d)
  | none =>
    pyDecSpecial (splitSign (stripUnderscores (pyStrip cs0))).1
      (splitSign (stripUnderscores (pyStrip cs0))).2

/-- `Decimal.__str__` over the full domain (the special branch of
`_pydecimal.Decimal.__str__`). -/
def pyDecStr : PyDec → Str
  | .fin d => decStr d
  | .inf sign => (if sign then ['-'] else []) ++ "Infinity".data
  | .nan sign sg diag =>
    (if sign then ['-'] else []) ++
      (if sg then "sNaN".data else "NaN".data) ++ diag.map digitChar

/-- Python `==` on `Decimal`s: a quiet `NaN` compares unequal to
everything, including itself; infinities compare by sign; finite values
compare numerically.  (On a signaling `NaN`, Python's `==` raises
`InvalidOperation` instead of returning a value; no claim reaches a
signaling `NaN`.) -/
def pyDecEqB : PyDec → PyDec → Bool
  | .nan _ _ _, _ => false
  | _, .nan _ _ _ => false
  | .inf s, .inf t => s == t
  | .inf _, .fin _ => false
  | .fin _, .inf _ => false
  | .fin a, .fin b => decNumEq a b

/-- `EAVDecimal._coerce` over the full `Decimal` domain: bools rejected,
`Decimal` values passed through, `int`/`float`/`str` parsed via
`Decimal(str(value))` with `InvalidOperation` mapped to the
"must be a valid decimal" error, everything else rejected. -/
def decimalCoerce (nm : Str) (value : JVal) : Except (List Str) PyDec :=
  match value with
  | .bool _ => .error [nm ++ " must be a decimal.".data]
  | .dec d => .ok (.fin d)
  | .int _ | .float _ | .str _ =>
    match pyDecOfChars (pyStr value) with
    | some x => .ok x
    | none => .error [nm ++ " must be a valid decimal.".data]
  | _ => .error [nm ++ " must be a decimal.".data]

/-- `EAVDecimal.to_json` on a present value: `str(value)`. -/
def decimalToJson (x : PyDec) : Str := pyDecStr x

/-- `EAVDecimal.from_json`: `None` returns the default, otherwise
`Decimal(str(value))` with the default as the `InvalidOperation`
fallback. -/
def decimalFromJson (dflt : Option PyDec) (value : JVal) : Option PyDec :=
  if value.isNull then dflt
  else
    match pyDecOfChars (pyStr value) with
    | some x => some x
    | none => dflt

/-- The characters `Decimal.__str__` can emit for a finite value. -/
def decCharOK (c : Char) : Bool :=
  isDigitCh c || c = '-' || c = '+' || c = '.' || c = 'E'

theorem decCharOK_digitChar (x : Nat) (h : x < 10) :
    decCharOK (digitChar x) = true := by
  unfold decCharOK
  rw [(digitChar_facts x h).1]
  rfl

theorem mem_natStr_ok (n : Nat) (c : Char) (hc : c ∈ natStr n) :
    decCharOK c = true := by
  unfold natStr at hc
  by_cases h0 : n = 0
  · rw [if_pos h0] at hc
    simp only [List.mem_singleton] at hc
    rw [hc]
    decide
  · rw [if_neg h0] at hc
    rcases List.mem_map.mp hc with ⟨x, hx, hcx⟩
    have hx10 : x < 10 := by
      rw [natDigitsMSB_eq] at hx
      exact Nat.digits_lt_base (by norm_num) (List.mem_reverse.mp hx)
    rw [← hcx]
    exact decCharOK_digitChar x hx10

theorem mem_intSignedStr_ok (i : Int) (c : Char) (hc : c ∈ intSignedStr i) :
    decCharOK c = true := by
  unfold intSignedStr at hc
  rcases List.mem_cons.mp hc with heq | hc'
  · rw [heq]
    by_cases hi : i < 0
    · rw [if_pos hi]
      decide
    · rw [if_neg hi]
      decide
  · exact mem_natStr_ok _ _ hc'

theorem mem_ite_list (c : Char) (P : Prop) [Decidable P] (A B : List Char)
    (h : c ∈ if P then A else B) : c ∈ A ∨ c ∈ B := by
  by_cases hp : P
  · rw [if_pos hp] at h
    exact Or.inl h
  · rw [if_neg hp] at h
    exact Or.inr h

theorem decStr_chars (d : Dec) (hd : ∀ x ∈ d.digits, x < 10) :
    ∀ c ∈ decStr d, decCharOK c = true := by
  intro c hc
  have hds : ∀ e ∈ d.digits.map digitChar, decCharOK e = true := by
    intro e he
    rcases List.mem_map.mp he with ⟨x, hx, hex⟩
    rw [← hex]
    exact decCharOK_digitChar x (hd x hx)
  simp only [decStr] at hc
  rcases List.mem_append.mp hc with hc1 | hcep
  rcases List.mem_append.mp hc1 with hc2 | hcfp
  rcases List.mem_append.mp hc2 with hcs | hcip
  · rcases mem_ite_list c _ _ _ hcs with h' | h'
    · simp only [List.mem_singleton] at h'
      rw [h']
      decide
    · exact absurd h' (List.not_mem_nil c)
  · rcases mem_ite_list c _ _ _ hcip with h' | h'
    · simp only [List.mem_singleton] at h'
      rw [h']
      decide
    · rcases mem_ite_list c _ _ _ h' with h2 | h2
      · rcases List.mem_append.mp h2 with h3 | h3
        · exact hds c h3
        · rw [List.eq_of_mem_replicate h3]
          decide
      · exact hds c (List.mem_of_mem_take h2)
  · rcases mem_ite_list c _ _ _ hcfp with h' | h'
    · rcases List.mem_cons.mp h' with heq | h2
      · rw [heq]
        decide
      · rcases List.mem_append.mp h2 with h3 | h3
        · rw [List.eq_of_mem_replicate h3]
          decide
        · exact hds c h3
    · rcases mem_ite_list c _ _ _ h' with h2 | h2
      · exact absurd h2 (List.not_mem_nil c)
      · rcases List.mem_cons.mp h2 with heq | h3
        · rw [heq]
          decide
        · exact hds c (List.mem_of_mem_drop h3)
  · rcases mem_ite_list c _ _ _ hcep with h' | h'
    · exact absurd h' (List.not_mem_nil c)
    · rcases List.mem_cons.mp h' with heq | h2
      · rw [heq]
        decide
      · exact mem_intSignedStr_ok _ _ h2

theorem dropWhile_eq_self_of_all (p : Char → Bool) (l : List Char)
    (h : ∀ c ∈ l, p c = false) : l.dropWhile p = l := by
  cases l with
  | nil => rfl
  | cons a t =>
    rw [List.dropWhile_cons, h a (List.mem_cons_self _ _)]
    rw [if_neg Bool.false_ne_true]

theorem pyStrip_eq_self (s : Str) (h : ∀ c ∈ s, isPySpace c = false) :
    pyStrip s = s := by
  unfold pyStrip
  rw [dropWhile_eq_self_of_all isPySpace s h]
  rw [dropWhile_eq_self_of_all isPySpace s.reverse
    (fun c hc => h c (List.mem_reverse.mp hc))]
  exact List.reverse_reverse s

theorem stripUnderscores_eq_self (s : Str) (h : ∀ c ∈ s, (c != '_') = true) :
    stripUnderscores s = s :=
  List.filter_eq_self.mpr h

theorem decCharOK_not_space (c : Char) (h : decCharOK c = true) :
    isPySpace c = false := by
  by_contra hs
  rw [Bool.not_eq_false] at hs
  simp only [isPySpace, Bool.or_eq_true, decide_eq_true_eq] at hs
  rcases hs with ((((h1 | h1) | h1) | h1) | h1) | h1 <;> subst h1 <;>
    exact absurd h (by decide)

theorem decCharOK_not_underscore (c : Char) (h : decCharOK c = true) :
    (c != '_') = true := by
  rw [bne_iff_ne]
  intro heq
  rw [heq] at h
  exact absurd h (by decide)

/-- A well-formed finite decimal's `__str__` output parses back to the
same value under the full grammar: stripping is the identity on it, and
the finite branch is exactly `decOfChars`. -/
theorem pyDecOfChars_decStr (d : Dec) (h : d.WF) :
    pyDecOfChars (decStr d) = some (.fin d) := by
  have hall : ∀ c ∈ decStr d, decCharOK c = true := decStr_chars d h.2.1
  unfold pyDecOfChars
  rw [pyStrip_eq_self _ (fun c hc => decCharOK_not_space c (hall c hc))]
  rw [stripUnderscores_eq_self _
    (fun c hc => decCharOK_not_underscore c (hall c hc))]
  rw [decOfChars_decStr d h]

/-- Counterexample to C2 as stated: an unconstrained `EAVDecimal`
accepts the string `"NaN"` — `Decimal("NaN")` raises no
`InvalidOperation`, and with no bounds, digit limits or choices,
`_check_constraints` and the choices test are skipped, so `validate`
returns `Decimal("NaN")`.  `to_json` serializes it to `"NaN"` and
`from_json` parses that back to a quiet `NaN`; but Python `==` on a
`NaN` is always `False`, so `from_json(to_json(v)) == v` fails for this
accepted `v`, refuting the universal round-trip law. -/
theorem C2_counterexample :
    decimalCoerce "price".data (.str "NaN".data) =
      .ok (PyDec.nan false false []) ∧
    decimalToJson (PyDec.nan false false []) = "NaN".data ∧
    decimalFromJson none (.str (decimalToJson (PyDec.nan false false []))) =
      some (PyDec.nan false false []) ∧
    pyDecEqB (PyDec.nan false false []) (PyDec.nan false false []) = false :=
  ⟨rfl, rfl, rfl, rfl⟩

/-- **C2** (amended): `from_json (to_json v) = v` — string-identical and
Python-`==`-equal — for every *finite* value a descriptor accepts:
`to_json`/`from_json` are the identity for every non-Decimal descriptor,
and the Decimal descriptor serializes a finite decimal to its exact
string (trailing zeros and scale preserved, e.g.
`Decimal("0.06500") ↦ "0.06500"`) and parses it back to the identical
internal representation, also under the full construction grammar.  The
restriction to finite values is necessary: an unconstrained `EAVDecimal`
also accepts `NaN`, which round-trips to a `NaN` object that Python `==`
does not equate with the original (the counterexample above). -/
theorem C2_json_round_trip :
    (∀ (a : EAVAttr) (v w : JVal),
      (∀ dd, v = JVal.dec dd → dd.WF) → v.isNull = false →
      a.validate v = .ok w → a.from_json (a.to_json w) = .ok w) ∧
    (∀ (a : EAVAttr) (w : JVal), a.isDecimal = false → a.to_json w = w) ∧
    (∀ (o : AttrOpts) (md dp : Option Int) (mn mx : Option Dec),
      (EAVAttr.decimal o md dp mn mx).to_json (.dec ⟨false, [6, 5, 0, 0], -5⟩)
          = .str "0.06500".data ∧
        (EAVAttr.decimal o md dp mn mx).from_json (.str "0.06500".data)
          = .ok (.dec ⟨false, [6, 5, 0, 0], -5⟩)) ∧
    (∀ (d : Dec), d.WF →
      pyDecOfChars (pyDecStr (.fin d)) = some (.fin d) ∧
      pyDecEqB (.fin d) (.fin d) = true) := by
  refine ⟨?_, ?_, ?_, ?_⟩
  · intro a v w hWF hv hval
    exact (tojson_reval a v w hWF (validate_ok_parts a v w hv hval).1).2.2
  · intro a w h
    cases a with
    | decimal o md dp mn mx => simp [EAVAttr.isDecimal] at h
    | string o ml => rfl
    | boolean o => rfl
    | integer o mn mx => rfl
    | float o mn mx => rfl
  · intro o md dp mn mx
    exact ⟨rfl, rfl⟩
  · intro d h
    refine ⟨pyDecOfChars_decStr d h, ?_⟩
    simp [pyDecEqB, decNumEq]

/-- Witness for C2 at `Decimal("0.06500")`: the serialized string
round-trips to the identical decimal, at the descriptor level and under
the full construction grammar. -/
theorem C2_json_round_trip_witness :
    ((EAVAttr.decimal {} none none none none).from_json
        ((EAVAttr.decimal {} none none none none).to_json
          (.dec ⟨false, [6, 5, 0, 0], -5⟩))
      = .ok (.dec ⟨false, [6, 5, 0, 0], -5⟩)) ∧
    pyDecOfChars (pyDecStr (.fin ⟨false, [6, 5, 0, 0], -5⟩)) =
      some (.fin ⟨false, [6, 5, 0, 0], -5⟩) :=
  ⟨C2_json_round_trip.1 (EAVAttr.decimal {} none none none none)
      (.str "0.06500".data) (.dec ⟨false, [6, 5, 0, 0], -5⟩)
      (fun _ h => nomatch h) rfl (by rfl),
   (C2_json_round_trip.2.2.2 ⟨false, [6, 5, 0, 0], -5⟩ (by decide)).1⟩

/-- **C7**: the Integer descriptor rejects every boolean with
"`<name>` must be an integer." and the Boolean descriptor rejects every
integer with "`<name>` must be a boolean.". -/
theorem C7_bool_int_guards :
    (∀ (o : AttrOpts) (mn mx : Option Int) (b : Bool),
      (EAVAttr.integer o mn mx).validate (.bool b) =
        .error [o.name ++ " must be an integer.".data]) ∧
    (∀ (o : AttrOpts) (n : Int),
      (EAVAttr.boolean o).validate (.int n) =
        .error [o.name ++ " must be a boolean.".data]) := by
  constructor
  · intro o mn mx b
    unfold EAVAttr.validate
    simp [JVal.isNull, EAVAttr.coerce, EAVAttr.name, EAVAttr.opts,
      Bind.bind, Except.bind]
  · intro o n
    unfold EAVAttr.validate
    simp [JVal.isNull, EAVAttr.coerce, EAVAttr.name, EAVAttr.opts,
      Bind.bind, Except.bind]

/-- **C3**: the Decimal digit constraints: with both bounds set, a value
passes iff its fractional digit count is at most `decimal_places` and its
integer-part digit count (total significant digits minus fractional
digits) is at most `max_digits - decimal_places`; with `decimal_places`
unset the allowed whole-digit count is exactly `max_digits`.  Concretely,
`max_digits=5, decimal_places=2` accepts `999.99` and rejects `10000.00`
("too many digits"), and `decimal_places=2` rejects `10.501`
("decimal places"). -/
theorem C3_decimal_digit_bounds :
    (∀ (nm : Str) (m p : Int) (d : Dec),
      decDigitCheck nm (some m) (some p) d = .ok () ↔
        decimalsOf d ≤ p ∧ wholeDigitsOf d ≤ m - p) ∧
    (∀ (nm : Str) (m : Int) (d : Dec),
      decDigitCheck nm (some m) none d = .ok () ↔ wholeDigitsOf d ≤ m) ∧
    ((EAVAttr.decimal {name := "amount".data} (some 5) (some 2) none none).validate
        (.dec ⟨false, [9, 9, 9, 9, 9], -2⟩) = .ok (.dec ⟨false, [9, 9, 9, 9, 9], -2⟩)) ∧
    ((EAVAttr.decimal {name := "amount".data} (some 5) (some 2) none none).validate
        (.dec ⟨false, [1, 0, 0, 0, 0, 0, 0], -2⟩) =
      .error ["amount has too many digits (max 5).".data]) ∧
    ((EAVAttr.decimal {name := "amount".data} none (some 2) none none).validate
        (.dec ⟨false, [1, 0, 5, 0, 1], -3⟩) =
      .error ["amount must have at most 2 decimal places.".data]) := by
  refine ⟨?_, ?_, by rfl, by rfl, by rfl⟩
  · intro nm m p d
    unfold decDigitCheck
    simp only [Option.getD_some, Bind.bind, Except.bind]
    split_ifs with h1 h2 <;> simp <;> omega
  · intro nm m d
    unfold decDigitCheck
    simp only [Option.getD_none, Bind.bind, Except.bind]
    split_ifs with h1 <;> simp <;> omega

/-!
## Claim C6: digit counts and zero formatting

Leading zeros are stripped by parsing, so they never distort the counts;
trailing zeros are preserved in the coefficient, so they do change the
fractional digit count (`1.5` vs `1.50`).
-/

theorem canonDigits_cons_zero (l : List Nat) :
    canonDigits (0 :: l) = canonDigits l := by
  unfold canonDigits
  rw [List.dropWhile_cons]
  simp

theorem decExpTail_congr (sg : Bool) (l1 l2 : List Nat) (fplen : Nat)
    (r : List Char) (h : canonDigits l1 = canonDigits l2) :
    decExpTail sg l1 fplen r = decExpTail sg l2 fplen r := by
  unfold decExpTail
  rw [h]

theorem finStage_expc (sg : Bool) (ip fp : List Nat) (c : Char) (r : List Char)
    (h : ¬(ip = [] ∧ fp = [])) (hc : c = 'E' ∨ c = 'e') :
    finStage sg ip (fp, c :: r) = decExpTail sg (ip ++ fp) fp.length r := by
  unfold finStage
  rw [if_neg h]
  show (if c = 'E' ∨ c = 'e' then decExpTail sg (ip ++ fp) fp.length r
    else none) = _
  rw [if_pos hc]

theorem finStage_junk (sg : Bool) (ip fp : List Nat) (c : Char) (r : List Char)
    (h : ¬(ip = [] ∧ fp = [])) (hc : ¬(c = 'E' ∨ c = 'e')) :
    finStage sg ip (fp, c :: r) = none := by
  unfold finStage
  rw [if_neg h]
  show (if c = 'E' ∨ c = 'e' then decExpTail sg (ip ++ fp) fp.length r
    else none) = _
  rw [if_neg hc]

theorem finStage_cons_zero (sg : Bool) (ip : List Nat)
    (fr : List Nat × List Char) (h : ¬(ip = [] ∧ fr.1 = [])) :
    finStage sg (0 :: ip) fr = finStage sg ip fr := by
  obtain ⟨fp, rest⟩ := fr
  simp only at h
  cases rest with
  | nil =>
    rw [finStage_end _ _ _ (by simp), finStage_end _ _ _ h]
    simp [List.cons_append, canonDigits_cons_zero]
  | cons c r =>
    by_cases hc : c = 'E' ∨ c = 'e'
    · rw [finStage_expc _ _ _ _ _ (by simp) hc, finStage_expc _ _ _ _ _ h hc]
      exact decExpTail_congr _ _ _ _ _ (by rw [List.cons_append, canonDigits_cons_zero])
    · rw [finStage_junk _ _ _ _ _ (by simp) hc, finStage_junk _ _ _ _ _ h hc]

theorem decAfterSign_some_guard (s : Bool) (cs1 : List Char) (d : Dec)
    (h : decAfterSign s cs1 = some d) :
    ¬((spanDigits cs1).1 = [] ∧ (fracStage (spanDigits cs1)).1 = []) := by
  intro hg
  unfold decAfterSign finStage at h
  rw [if_pos hg] at h
  exact absurd h (by simp)

theorem spanDigits_cons_zero (rest : List Char) :
    spanDigits ('0' :: rest) =
      (0 :: (spanDigits rest).1, (spanDigits rest).2) := by
  show (if isDigitCh '0' then _ else _) = _
  rw [if_pos (by decide)]
  cases hsp : spanDigits rest with
  | mk ds r => rfl

theorem fracStage_fst_irrel (x y : List Nat) (r : List Char) :
    fracStage (x, r) = fracStage (y, r) := by
  unfold fracStage
  rfl

/-- Prefixing a leading `'0'` to a numeral (no sign) parses to the very
same decimal. -/
theorem decOfChars_cons_zero (c : Char) (t : List Char) (d : Dec)
    (hc : isDigitCh c = true) (h : decOfChars (c :: t) = some d) :
    decOfChars ('0' :: c :: t) = some d := by
  simp only [decOfChars, splitSign_of_digit c t hc] at h
  simp only [decOfChars, splitSign_of_digit '0' (c :: t) (by decide)]
  unfold decAfterSign at h ⊢
  rw [spanDigits_cons_zero]
  show finStage false (0 :: (spanDigits (c :: t)).1)
      (fracStage (0 :: (spanDigits (c :: t)).1, (spanDigits (c :: t)).2)) = some d
  rw [fracStage_fst_irrel (0 :: (spanDigits (c :: t)).1) (spanDigits (c :: t)).1]
  have hguard := decAfterSign_some_guard false (c :: t) d
    (by unfold decAfterSign; exact h)
  rw [show ((spanDigits (c :: t)).1, (spanDigits (c :: t)).2)
      = spanDigits (c :: t) by rfl]
  rw [finStage_cons_zero _ _ _ hguard]
  exact h

theorem natOfDigitsMSB_append_zero (l : List Nat) :
    natOfDigitsMSB (l ++ [0]) = 10 * natOfDigitsMSB l := by
  unfold natOfDigitsMSB
  rw [List.foldl_append]
  simp

/-- Appending a trailing zero to the coefficient (and lowering the
exponent) keeps the numeric value and the integer-part digit count but
increments the fractional digit count. -/
theorem dec_pad_zero (d : Dec) (h : d.exp ≤ 0) :
    decimalsOf ⟨d.sign, d.digits ++ [0], d.exp - 1⟩ = decimalsOf d + 1 ∧
      wholeDigitsOf ⟨d.sign, d.digits ++ [0], d.exp - 1⟩ = wholeDigitsOf d ∧
      decNumEq ⟨d.sign, d.digits ++ [0], d.exp - 1⟩ d = true := by
  have h1 : decimalsOf ⟨d.sign, d.digits ++ [0], d.exp - 1⟩ = decimalsOf d + 1 := by
    show (if d.exp - 1 < 0 then -(d.exp - 1) else 0) = decimalsOf d + 1
    unfold decimalsOf
    split_ifs <;> omega
  refine ⟨h1, ?_, ?_⟩
  · unfold wholeDigitsOf
    rw [h1]
    show ((d.digits ++ [0]).length : Int) - (decimalsOf d + 1) = _
    simp only [List.length_append, List.length_singleton]
    push_cast
    omega
  · simp only [decNumEq, decide_eq_true_eq, decScaled]
    show (if d.sign then -1 else 1) * (natOfDigitsMSB (d.digits ++ [0]) : Int) *
        10 ^ (d.exp - 1 - min (d.exp - 1) d.exp).toNat =
      (if d.sign then -1 else 1) * (natOfDigitsMSB d.digits : Int) *
        10 ^ (d.exp - min (d.exp - 1) d.exp).toNat
    rw [min_eq_left (by omega : d.exp - 1 ≤ d.exp)]
    rw [show d.exp - 1 - (d.exp - 1) = 0 by ring,
      show d.exp - (d.exp - 1) = 1 by ring]
    rw [natOfDigitsMSB_append_zero]
    norm_num
    cases d.sign <;> push_cast <;> ring_nf

/-- Counterexample to C6 as stated: `Decimal("1.5")` and `Decimal("1.50")`
are numerically equal but the trailing zero is kept in the internal
coefficient, so with `decimal_places=1` the first is accepted and the
second rejected. -/
theorem C6_counterexample :
    decOfChars "1.5".data = some ⟨false, [1, 5], -1⟩ ∧
    decOfChars "1.50".data = some ⟨false, [1, 5, 0], -2⟩ ∧
    decNumEq ⟨false, [1, 5], -1⟩ ⟨false, [1, 5, 0], -2⟩ = true ∧
    (EAVAttr.decimal {name := "r".data} none (some 1) none none).validate
        (.dec ⟨false, [1, 5], -1⟩) = .ok (.dec ⟨false, [1, 5], -1⟩) ∧
    (EAVAttr.decimal {name := "r".data} none (some 1) none none).validate
        (.dec ⟨false, [1, 5, 0], -2⟩) =
      .error ["r must have at most 1 decimal places.".data] :=
  ⟨rfl, rfl, by decide, rfl, rfl⟩

/-- **C6 (amended)**: digit counts are computed from the internal
`(sign, digits, exponent)` tuple — `decimalsOf`/`wholeDigitsOf` as used by
`_check_constraints`.  Leading-zero formatting never distorts them
(parsing strips leading zeros, recovering the identical decimal), but
trailing zeros are preserved in the coefficient: padding one keeps the
numeric value and the integer-part count while incrementing the
fractional count, so the `decimal_places` outcome can differ between
numerically equal inputs. -/
theorem C6_digit_counts_formatting :
    (∀ d : Dec, decimalsOf d = (if d.exp < 0 then -d.exp else 0) ∧
      wholeDigitsOf d = (d.digits.length : Int) - decimalsOf d) ∧
    (∀ (c : Char) (t : List Char) (d : Dec), isDigitCh c = true →
      decOfChars (c :: t) = some d → decOfChars ('0' :: c :: t) = some d) ∧
    (∀ d : Dec, d.exp ≤ 0 →
      decimalsOf ⟨d.sign, d.digits ++ [0], d.exp - 1⟩ = decimalsOf d + 1 ∧
      wholeDigitsOf ⟨d.sign, d.digits ++ [0], d.exp - 1⟩ = wholeDigitsOf d ∧
      decNumEq ⟨d.sign, d.digits ++ [0], d.exp - 1⟩ d = true) :=
  ⟨fun _ => ⟨rfl, rfl⟩,
   fun c t d hc h => decOfChars_cons_zero c t d hc h,
   fun d h => dec_pad_zero d h⟩

/-- Witness for the amended C6: `"01.5"` parses to the same decimal as
`"1.5"`, and padding `1.5` to `1.50` keeps the whole-digit count `1`
while raising the fractional count to `2`. -/
theorem C6_digit_counts_formatting_witness :
    decOfChars "01.5".data = some ⟨false, [1, 5], -1⟩ ∧
      decimalsOf ⟨false, [1, 5, 0], -2⟩ = decimalsOf ⟨false, [1, 5], -1⟩ + 1 := by
  constructor
  · exact C6_digit_counts_formatting.2.1 '1' (".5".data) ⟨false, [1, 5], -1⟩
      (by decide) rfl
  · exact (C6_digit_counts_formatting.2.2 ⟨false, [1, 5], -1⟩ (by decide)).1

/-!
## Ordered-dict lemmas
-/

theorem alookup_eq_none {V : Type} (m : List (Str × V)) (k : Str) :
    alookup m k = none ↔ k ∉ m.map Prod.fst := by
  induction m with
  | nil => simp [alookup]
  | cons p rest ih =>
    obtain ⟨k1, v1⟩ := p
    simp only [alookup, List.map_cons, List.mem_cons]
    by_cases hk : k1 = k
    · rw [if_pos hk]
      constructor
      · intro hsome
        exact absurd hsome (Option.some_ne_none v1)
      · intro hmem
        exact absurd (Or.inl hk.symm) hmem
    · rw [if_neg hk, ih]
      constructor
      · intro h
        rintro (h1 | h1)
        · exact hk h1.symm
        · exact h h1
      · intro h h1
        exact h (Or.inr h1)

theorem alookup_mem {V : Type} (m : List (Str × V)) (k : Str) (v : V)
    (h : alookup m k = some v) : (k, v) ∈ m := by
  induction m with
  | nil => simp [alookup] at h
  | cons p rest ih =>
    obtain ⟨k1, v1⟩ := p
    by_cases hk : k1 = k
    · subst hk
      rw [alookup, if_pos rfl] at h
      injection h with h
      subst h
      simp
    · rw [alookup, if_neg hk] at h
      exact List.mem_cons_of_mem _ (ih h)

theorem alookup_append {V : Type} (m1 m2 : List (Str × V)) (q : Str) :
    alookup (m1 ++ m2) q =
      match alookup m1 q with
      | some v => some v
      | none => alookup m2 q := by
  induction m1 with
  | nil => simp [alookup]
  | cons p rest ih =>
    obtain ⟨k1, v1⟩ := p
    by_cases hk : k1 = q
    · subst hk
      simp [alookup]
    · simp only [List.cons_append, alookup, if_neg hk]
      exact ih

theorem odAssign_fresh {V : Type} (m : List (Str × V)) (k : Str) (v : V)
    (h : k ∉ m.map Prod.fst) : odAssign m k v = m ++ [(k, v)] := by
  unfold odAssign
  rw [if_neg]
  rw [(alookup_eq_none m k).mpr h]
  simp

theorem alookup_map_ne {V : Type} (m : List (Str × V)) (k q : Str)
    (f : Str × V → Str × V) (hf : ∀ p, p.1 ≠ k → f p = p)
    (hfk : ∀ p, (f p).1 = p.1 ∨ (f p).1 = k) (h : q ≠ k) :
    alookup (m.map f) q = alookup m q := by
  induction m with
  | nil => rfl
  | cons p rest ih =>
    obtain ⟨k1, v1⟩ := p
    by_cases hk : k1 = k
    · have hfp1 : (f (k1, v1)).1 = k := by
        rcases hfk (k1, v1) with hp | hp
        · rw [hp]
          exact hk
        · rw [hp]
      simp only [List.map_cons, alookup]
      rw [if_neg (fun he => h ((hfp1.symm.trans he).symm)),
        if_neg (fun he => h (he.symm.trans hk))]
      exact ih
    · rw [List.map_cons, hf (k1, v1) hk]
      simp only [alookup]
      by_cases hq : k1 = q
      · rw [if_pos hq, if_pos hq]
      · rw [if_neg hq, if_neg hq]
        exact ih

theorem alookup_assign_map_self {V : Type} (m : List (Str × V)) (k : Str) (v : V)
    (hs : (alookup m k).isSome = true) :
    alookup (m.map (fun p => if p.1 = k then (k, v) else p)) k = some v := by
  induction m with
  | nil => simp [alookup] at hs
  | cons p rest ih =>
    obtain ⟨k1, v1⟩ := p
    by_cases hk : k1 = k
    · simp only [List.map_cons]
      rw [show (if (k1, v1).1 = k then (k, v) else (k1, v1)) = (k, v) from if_pos hk]
      simp [alookup]
    · simp only [List.map_cons]
      rw [show (if (k1, v1).1 = k then (k, v) else (k1, v1)) = (k1, v1) from if_neg hk]
      rw [alookup, if_neg hk]
      rw [alookup, if_neg hk] at hs
      exact ih hs

/-- `d[k] = v` then lookup: the assigned key reads back `v`, all other
keys are untouched. -/
theorem alookup_odAssign {V : Type} (m : List (Str × V)) (k : Str) (v : V)
    (q : Str) :
    alookup (odAssign m k v) q = if q = k then some v else alookup m q := by
  unfold odAssign
  by_cases hq : q = k
  · subst hq
    rw [if_pos rfl]
    by_cases hs : (alookup m q).isSome
    · rw [if_pos hs]
      exact alookup_assign_map_self m q v hs
    · rw [if_neg hs]
      rw [alookup_append]
      cases hl : alookup m q with
      | some w => rw [hl] at hs; simp at hs
      | none => simp [alookup]
  · rw [if_neg hq]
    by_cases hs : (alookup m k).isSome
    · rw [if_pos hs]
      exact alookup_map_ne m k q _
        (fun p hp => if_neg hp)
        (fun p => by
          by_cases hp : p.1 = k
          · right
            rw [if_pos hp]
          · left
            rw [if_neg hp])
        hq
    · rw [if_neg hs]
      rw [alookup_append]
      cases hl : alookup m q with
      | some w => rfl
      | none =>
        have hkq : ¬ k = q := fun he => hq he.symm
        simp [alookup, hkq]

theorem alookup_extend_map_self (m : List (Str × List Str)) (k : Str)
    (msgs old : List Str) (hl : alookup m k = some old) :
    alookup (m.map (fun p => if p.1 = k then (p.1, p.2 ++ msgs) else p)) k =
      some (old ++ msgs) := by
  induction m with
  | nil => simp [alookup] at hl
  | cons p rest ih =>
    obtain ⟨k1, v1⟩ := p
    by_cases hk : k1 = k
    · simp only [List.map_cons]
      rw [show (if (k1, v1).1 = k then ((k1, v1).1, (k1, v1).2 ++ msgs) else (k1, v1))
          = (k1, v1 ++ msgs) from if_pos hk]
      rw [alookup, if_pos hk]
      rw [alookup, if_pos hk] at hl
      injection hl with hl
      rw [hl]
    · simp only [List.map_cons]
      rw [show (if (k1, v1).1 = k then ((k1, v1).1, (k1, v1).2 ++ msgs) else (k1, v1))
          = (k1, v1) from if_neg hk]
      rw [alookup, if_neg hk]
      rw [alookup, if_neg hk] at hl
      exact ih hl

/-- `errors.setdefault(k, []).extend(msgs)` then lookup: key `k` reads the
old messages extended with `msgs` (or just `msgs` when absent); other keys
untouched. -/
theorem alookup_odExtend (m : List (Str × List Str)) (k : Str)
    (msgs : List Str) (q : Str) :
    alookup (odExtend m k msgs) q =
      if q = k then
        (match alookup m k with
         | some old => some (old ++ msgs)
         | none => some msgs)
      else alookup m q := by
  unfold odExtend
  by_cases hq : q = k
  · subst hq
    rw [if_pos rfl]
    cases hl : alookup m q with
    | some old =>
      rw [if_pos (by rfl)]
      exact alookup_extend_map_self m q msgs old hl
    | none =>
      rw [if_neg (by simp)]
      rw [alookup_append, hl]
      simp [alookup]
  · rw [if_neg hq]
    by_cases hs : (alookup m k).isSome
    · rw [if_pos hs]
      exact alookup_map_ne m k q _
        (fun p hp => if_neg hp)
        (fun p => by
          by_cases hp : p.1 = k
          · rw [if_pos hp]
            left
            rfl
          · left
            rw [if_neg hp])
        hq
    · rw [if_neg hs]
      rw [alookup_append]
      cases hl : alookup m q with
      | some w => rfl
      | none =>
        have hkq : ¬ k = q := fun he => hq he.symm
        simp [alookup, hkq]

/-!
## Sortedness of `sortStrs`
-/

theorem strLe_total (a b : Str) : strLe a b = true ∨ strLe b a = true := by
  induction a generalizing b with
  | nil => left; rfl
  | cons x xs ih =>
    cases b with
    | nil => right; rfl
    | cons y ys =>
      by_cases h1 : x.toNat < y.toNat
      · left
        simp [strLe, h1]
      · by_cases h2 : y.toNat < x.toNat
        · right
          simp [strLe, h1, h2]
        · rcases ih ys with h | h
          · left
            simp [strLe, h1, h2, h]
          · right
            simp [strLe, h1, h2, h]

theorem strLe_trans (a b c : Str) (h1 : strLe a b = true)
    (h2 : strLe b c = true) : strLe a c = true := by
  induction a generalizing b c with
  | nil => rfl
  | cons x xs ih =>
    cases b with
    | nil => simp [strLe] at h1
    | cons y ys =>
      cases c with
      | nil => simp [strLe] at h2
      | cons z zs =>
        simp only [strLe] at h1 h2 ⊢
        by_cases hxy : x.toNat < y.toNat
        · by_cases hyz : y.toNat < z.toNat
          · rw [if_pos (by omega)]
          · rw [if_neg hyz] at h2
            by_cases hzy : z.toNat < y.toNat
            · rw [if_pos hzy] at h2
              exact absurd h2 (by simp)
            · rw [if_neg hzy] at h2
              rw [if_pos (by omega)]
        · rw [if_neg hxy] at h1
          by_cases hyx : y.toNat < x.toNat
          · rw [if_pos hyx] at h1
            exact absurd h1 (by simp)
          · rw [if_neg hyx] at h1
            by_cases hyz : y.toNat < z.toNat
            · rw [if_pos (by omega)]
            · rw [if_neg hyz] at h2
              by_cases hzy : z.toNat < y.toNat
              · rw [if_pos hzy] at h2
                exact absurd h2 (by simp)
              · rw [if_neg hzy] at h2
                rw [if_neg (by omega), if_neg (by omega)]
                exact ih ys zs h1 h2

theorem mem_strInsort (e x : Str) (l : List Str) :
    e ∈ strInsort x l ↔ e = x ∨ e ∈ l := by
  induction l with
  | nil => simp [strInsort]
  | cons y ys ih =>
    unfold strInsort
    by_cases h : strLe x y = true
    · rw [if_pos h]
      simp
    · rw [if_neg h]
      simp only [List.mem_cons, ih]
      tauto

theorem strInsort_pairwise (x : Str) (l : List Str)
    (hl : l.Pairwise (fun a b => strLe a b = true)) :
    (strInsort x l).Pairwise (fun a b => strLe a b = true) := by
  induction l with
  | nil => simp [strInsort]
  | cons y ys ih =>
    rw [List.pairwise_cons] at hl
    unfold strInsort
    by_cases h : strLe x y = true
    · rw [if_pos h]
      rw [List.pairwise_cons]
      refine ⟨?_, List.Pairwise.cons hl.1 hl.2⟩
      intro e he
      rcases List.mem_cons.mp he with rfl | he
      · exact h
      · exact strLe_trans x y e h (hl.1 e he)
    · rw [if_neg h]
      rw [List.pairwise_cons]
      refine ⟨?_, ih hl.2⟩
      intro e he
      rcases (mem_strInsort e x ys).mp he with rfl | he
      · rcases strLe_total e y with h' | h'
        · exact absurd h' h
        · exact h'
      · exact hl.1 e he

theorem sortStrs_pairwise (l : List Str) :
    (sortStrs l).Pairwise (fun a b => strLe a b = true) := by
  induction l with
  | nil => simp [sortStrs]
  | cons x xs ih => exact strInsort_pairwise x (sortStrs xs) ih

theorem mem_sortStrs (e : Str) (l : List Str) : e ∈ sortStrs l ↔ e ∈ l := by
  induction l with
  | nil => simp [sortStrs]
  | cons x xs ih =>
    show e ∈ strInsort x (sortStrs xs) ↔ _
    rw [mem_strInsort, ih]
    simp

/-!
## Field-pass lemmas
-/

theorem alookup_foldl_assign {V : Type} (f : Str → V) (keys : List Str)
    (acc : List (Str × V)) (q : Str) :
    alookup (keys.foldl (fun m k => odAssign m k (f k)) acc) q =
      if q ∈ keys then some (f q) else alookup acc q := by
  induction keys generalizing acc with
  | nil => simp
  | cons k ks ih =>
    simp only [List.foldl_cons]
    rw [ih]
    by_cases hq : q ∈ ks
    · rw [if_pos hq, if_pos (by simp [hq])]
    · rw [if_neg hq, alookup_odAssign]
      by_cases hqk : q = k
      · subst hqk
        rw [if_pos rfl, if_pos (by simp)]
      · rw [if_neg hqk, if_neg (by simp [hqk, hq])]

/-- Lookup in the `errors` dict built by the unknown-key pass. -/
theorem alookup_unknownErrors (sch : Schema) (entries : List (Str × JVal))
    (q : Str) :
    alookup (unknownErrors sch entries) q =
      if q ∈ unknownKeys sch entries then some [unknownMsg q] else none := by
  unfold unknownErrors
  rw [alookup_foldl_assign (fun k => [unknownMsg k]) (unknownKeys sch entries) [] q]
  rfl

theorem fieldStep_errs_ne (entries : List (Str × JVal))
    (st : ErrDict × List (Str × JVal)) (p : Str × EAVAttr) (q : Str)
    (hq : q ≠ p.1) :
    alookup (fieldStep entries st p).1 q = alookup st.1 q := by
  unfold fieldStep
  cases p.2.validate (dget entries p.1) with
  | ok v => rfl
  | error msgs =>
    show alookup (odExtend st.1 p.1 msgs) q = _
    rw [alookup_odExtend, if_neg hq]

theorem foldl_fieldStep_errs_not_mem (entries : List (Str × JVal))
    (l : List (Str × EAVAttr)) (st : ErrDict × List (Str × JVal)) (q : Str)
    (hq : q ∉ l.map Prod.fst) :
    alookup (l.foldl (fieldStep entries) st).1 q = alookup st.1 q := by
  induction l generalizing st with
  | nil => rfl
  | cons p rest ih =>
    simp only [List.map_cons, List.mem_cons] at hq
    push_neg at hq
    simp only [List.foldl_cons]
    rw [ih _ hq.2, fieldStep_errs_ne entries st p q hq.1]

theorem foldl_fieldStep_errs_mem (entries : List (Str × JVal))
    (l : List (Str × EAVAttr)) (st : ErrDict × List (Str × JVal)) (q : Str)
    (a : EAVAttr) (hnd : (l.map Prod.fst).Nodup) (hmem : (q, a) ∈ l)
    (h0 : alookup st.1 q = none) :
    alookup (l.foldl (fieldStep entries) st).1 q =
      match a.validate (dget entries q) with
      | .ok _ => none
      | .error msgs => some msgs := by
  induction l generalizing st with
  | nil => exact absurd hmem (List.not_mem_nil _)
  | cons p rest ih =>
    simp only [List.map_cons, List.nodup_cons] at hnd
    rcases List.mem_cons.mp hmem with rfl | hmem'
    · simp only [List.foldl_cons]
      have hqrest : q ∉ rest.map Prod.fst := hnd.1
      rw [foldl_fieldStep_errs_not_mem entries rest _ q hqrest]
      unfold fieldStep
      cases hv : a.validate (dget entries q) with
      | ok v => exact h0
      | error msgs =>
        show alookup (odExtend st.1 q msgs) q = _
        rw [alookup_odExtend, if_pos rfl, h0]
    · simp only [List.foldl_cons]
      have hne : q ≠ p.1 := by
        intro he
        exact hnd.1 (he ▸ (List.mem_map.mpr ⟨(q, a), hmem', by rw [he]⟩))
      rw [ih _ hnd.2 hmem' (by rw [fieldStep_errs_ne entries st p q hne]; exact h0)]

theorem mem_odAssign {V : Type} (m : List (Str × V)) (k : Str) (v : V)
    (p : Str × V) (h : p ∈ odAssign m k v) : p ∈ m ∨ p = (k, v) := by
  unfold odAssign at h
  split at h
  · rcases List.mem_map.mp h with ⟨p', hp', hfp⟩
    by_cases hk : p'.1 = k
    · rw [if_pos hk] at hfp
      right
      exact hfp.symm
    · rw [if_neg hk] at hfp
      left
      rw [← hfp]
      exact hp'
  · rcases List.mem_append.mp h with h | h
    · left
      exact h
    · right
      simpa using h

theorem odAssign_keys {V : Type} (m : List (Str × V)) (k : Str) (v : V)
    (q : Str) (h : q ∈ (odAssign m k v).map Prod.fst) :
    q ∈ m.map Prod.fst ∨ q = k := by
  rcases List.mem_map.mp h with ⟨p, hp, hq⟩
  rcases mem_odAssign m k v p hp with h' | h'
  · left
    exact hq ▸ List.mem_map.mpr ⟨p, h', rfl⟩
  · right
    rw [← hq, h']

theorem foldl_fieldStep_cleaned_keys (entries : List (Str × JVal))
    (l : List (Str × EAVAttr)) (st : ErrDict × List (Str × JVal)) (q : Str)
    (h : q ∈ ((l.foldl (fieldStep entries) st).2).map Prod.fst) :
    q ∈ st.2.map Prod.fst ∨ q ∈ l.map Prod.fst := by
  induction l generalizing st with
  | nil => exact Or.inl h
  | cons p rest ih =>
    simp only [List.foldl_cons] at h
    rcases ih _ h with h' | h'
    · cases hv : p.2.validate (dget entries p.1) with
      | ok v =>
        simp only [fieldStep, hv] at h'
        by_cases hn : v.isNull
        · rw [if_pos hn] at h'
          exact Or.inl h'
        · rw [if_neg hn] at h'
          rcases odAssign_keys _ _ _ _ h' with h'' | h''
          · exact Or.inl h''
          · right
            rw [List.map_cons, h'']
            exact List.mem_cons_self _ _
      | error msgs =>
        simp only [fieldStep, hv] at h'
        exact Or.inl h'
    · right
      rw [List.map_cons]
      exact List.mem_cons_of_mem _ h'

/-- Equation form of `EAVSchema.validate` on a dict input. -/
theorem validate_obj_eq (sch : Schema) (entries : List (Str × JVal)) :
    sch.validate (.obj entries) =
      (if (fieldPass sch entries).1 ≠ [] then .error (fieldPass sch entries).1
       else
         match sch.cross (fieldPass sch entries).2 with
         | .error e => .error e
         | .ok _ => .ok (fieldPass sch entries).2) := by
  show (match fieldPass sch entries with
    | (errors, cleaned) =>
      if errors ≠ [] then Except.error errors
      else
        match sch.cross cleaned with
        | .error e => .error e
        | .ok _ => .ok cleaned) = _
  cases hfp : fieldPass sch entries with
  | mk errs cl => rfl

/-- `None` input behaves as the empty dict. -/
theorem validate_null_eq (sch : Schema) :
    sch.validate .null = sch.validate (.obj []) := rfl

/-- Membership in the unknown-key list. -/
theorem mem_unknownKeys (sch : Schema) (entries : List (Str × JVal)) (k : Str) :
    k ∈ unknownKeys sch entries ↔
      k ∈ entries.map Prod.fst ∧ k ∉ sch.attrs.map Prod.fst := by
  unfold unknownKeys
  rw [mem_sortStrs, List.mem_filter]
  simp only [decide_eq_true_eq]

/-- **C1**: a non-mapping input fails immediately with exactly the one
structural error `"Config must be a dict."` under `"__all__"` and no
per-field work; on a mapping, all field-level errors are collected and
surfaced together as one aggregated report, the unknown keys are exactly
the undeclared input keys, reported in lexicographic order each under its
own key with message `"Unknown config key: <key>."`, and unknown keys
never abort the pass: every declared attribute is still validated and its
error messages land in the same report. -/
theorem C1_validate_error_handling :
    (∀ (sch : Schema) (d : JVal), d.isNull = false → (∀ kvs, d ≠ .obj kvs) →
      sch.validate d = .error [("__all__".data, ["Config must be a dict.".data])]) ∧
    (∀ (sch : Schema) (entries : List (Str × JVal)),
      (fieldPass sch entries).1 ≠ [] →
      sch.validate (.obj entries) = .error (fieldPass sch entries).1) ∧
    (∀ (sch : Schema) (entries : List (Str × JVal)) (k : Str),
      k ∈ unknownKeys sch entries ↔
        k ∈ entries.map Prod.fst ∧ k ∉ sch.attrs.map Prod.fst) ∧
    (∀ (sch : Schema) (entries : List (Str × JVal)),
      (unknownKeys sch entries).Pairwise (fun a b => strLe a b = true)) ∧
    (∀ (sch : Schema) (entries : List (Str × JVal)) (k : Str),
      k ∈ unknownKeys sch entries →
      alookup (fieldPass sch entries).1 k = some [unknownMsg k]) ∧
    (∀ (sch : Schema) (entries : List (Str × JVal)) (nm : Str) (a : EAVAttr)
      (msgs : List Str), (sch.attrs.map Prod.fst).Nodup →
      (nm, a) ∈ sch.attrs → a.validate (dget entries nm) = .error msgs →
      alookup (fieldPass sch entries).1 nm = some msgs) := by
  refine ⟨?_, ?_, mem_unknownKeys, ?_, ?_, ?_⟩
  · intro sch d hnull hobj
    cases d with
    | null => simp [JVal.isNull] at hnull
    | obj kvs => exact absurd rfl (hobj kvs)
    | bool b => rfl
    | int n => rfl
    | float x => rfl
    | str s => rfl
    | dec dd => rfl
    | arr xs => rfl
  · intro sch entries h
    rw [validate_obj_eq, if_pos h]
  · intro sch entries
    exact sortStrs_pairwise _
  · intro sch entries k hk
    have hk2 : k ∉ sch.attrs.map Prod.fst := ((mem_unknownKeys sch entries k).mp hk).2
    unfold fieldPass
    rw [foldl_fieldStep_errs_not_mem entries sch.attrs _ k hk2]
    show alookup (unknownErrors sch entries) k = _
    rw [alookup_unknownErrors, if_pos hk]
  · intro sch entries nm a msgs hnd hmem hval
    have hdecl : nm ∈ sch.attrs.map Prod.fst :=
      List.mem_map.mpr ⟨(nm, a), hmem, rfl⟩
    have hnk : nm ∉ unknownKeys sch entries := by
      intro hu
      exact ((mem_unknownKeys sch entries nm).mp hu).2 hdecl
    unfold fieldPass
    rw [foldl_fieldStep_errs_mem entries sch.attrs _ nm a hnd hmem
      (by
        show alookup (unknownErrors sch entries) nm = none
        rw [alookup_unknownErrors, if_neg hnk])]
    rw [hval]

/-- Witness for C1 on a concrete schema and inputs: a string input is
rejected structurally, and a dict with two unknown keys and a bad declared
value aggregates all three errors (unknown keys sorted). -/
theorem C1_validate_error_handling_witness :
    ({ attrs := [("name".data, EAVAttr.string {name := "name".data} none)] }
        : Schema).validate (.str "nope".data) =
        .error [("__all__".data, ["Config must be a dict.".data])] ∧
      ({ attrs := [("name".data, EAVAttr.string {name := "name".data} none)] }
        : Schema).validate
          (.obj [("name".data, .int 3), ("zz".data, .int 1), ("aa".data, .int 2)]) =
        .error (fieldPass
          { attrs := [("name".data, EAVAttr.string {name := "name".data} none)] }
          [("name".data, .int 3), ("zz".data, .int 1), ("aa".data, .int 2)]).1 := by
  constructor
  · exact C1_validate_error_handling.1 _ (.str "nope".data) rfl (fun kvs h => nomatch h)
  · exact C1_validate_error_handling.2.1 _ _ (by decide)

/-- **C4**: when any field-level error was collected, `validate_cross` is
never invoked — the result is the aggregated field report, identical for
any two hooks; the hook runs only on a completely clean field pass, and a
failing hook's report is surfaced exactly as raised, never merged with
field-level errors. -/
theorem C4_cross_hook_gating :
    (∀ (attrs : List (Str × EAVAttr))
        (cross1 cross2 : List (Str × JVal) → Except ErrDict Unit)
        (entries : List (Str × JVal)),
      (fieldPass ⟨attrs, cross1⟩ entries).1 ≠ [] →
      Schema.validate ⟨attrs, cross1⟩ (.obj entries)
          = Schema.validate ⟨attrs, cross2⟩ (.obj entries) ∧
        Schema.validate ⟨attrs, cross1⟩ (.obj entries)
          = .error (fieldPass ⟨attrs, cross1⟩ entries).1) ∧
    (∀ (sch : Schema) (entries : List (Str × JVal)) (e : ErrDict),
      (fieldPass sch entries).1 = [] →
      sch.cross (fieldPass sch entries).2 = .error e →
      sch.validate (.obj entries) = .error e) ∧
    (∀ (sch : Schema) (entries : List (Str × JVal)) (u : Unit),
      (fieldPass sch entries).1 = [] →
      sch.cross (fieldPass sch entries).2 = .ok u →
      sch.validate (.obj entries) = .ok (fieldPass sch entries).2) := by
  refine ⟨?_, ?_, ?_⟩
  · intro attrs cross1 cross2 entries h
    have hsame : fieldPass ⟨attrs, cross1⟩ entries
        = fieldPass ⟨attrs, cross2⟩ entries := rfl
    constructor
    · rw [validate_obj_eq, validate_obj_eq, if_pos h, ← hsame,
        if_pos h]
    · rw [validate_obj_eq, if_pos h]
  · intro sch entries e h hcross
    rw [validate_obj_eq, if_neg (by simp [h]), hcross]
  · intro sch entries u h hcross
    rw [validate_obj_eq, if_neg (by simp [h]), hcross]

/-- Witness for C4 on the `min_val < max_val` schema from the test suite:
with a field-level error present the failing hook is not consulted, and on
a clean pass the hook's own report is surfaced verbatim. -/
theorem C4_cross_hook_gating_witness :
    (Schema.validate
        ⟨[("min_val".data, EAVAttr.integer {name := "min_val".data} none none)],
          fun _ => .error [("max_val".data, ["max_val must be > min_val.".data])]⟩
        (.obj [("min_val".data, .bool true)])
      = .error [("min_val".data, ["min_val must be an integer.".data])]) ∧
    (Schema.validate
        ⟨[("min_val".data, EAVAttr.integer {name := "min_val".data} none none)],
          fun _ => .error [("max_val".data, ["max_val must be > min_val.".data])]⟩
        (.obj [("min_val".data, .int 10)])
      = .error [("max_val".data, ["max_val must be > min_val.".data])]) := by
  constructor
  · have h := (C4_cross_hook_gating.1
      [("min_val".data, EAVAttr.integer {name := "min_val".data} none none)]
      (fun _ => .error [("max_val".data, ["max_val must be > min_val.".data])])
      (fun _ => .ok ())
      [("min_val".data, .bool true)] (by decide)).2
    rw [h]
    congr 1
  · exact C4_cross_hook_gating.2.1
      ⟨[("min_val".data, EAVAttr.integer {name := "min_val".data} none none)],
        fun _ => .error [("max_val".data, ["max_val must be > min_val.".data])]⟩
      [("min_val".data, .int 10)] _ (by decide) rfl

/-- Inversion of a successful `validate` on a dict: clean field pass,
cleaned dict returned, hook passed. -/
theorem validate_obj_ok (sch : Schema) (entries c : List (Str × JVal))
    (h : sch.validate (.obj entries) = .ok c) :
    (fieldPass sch entries).1 = [] ∧ (fieldPass sch entries).2 = c ∧
      ∃ u, sch.cross c = .ok u := by
  rw [validate_obj_eq] at h
  by_cases herr : (fieldPass sch entries).1 ≠ []
  · rw [if_pos herr] at h
    exact absurd h (by simp)
  · rw [if_neg herr] at h
    push_neg at herr
    cases hc : sch.cross (fieldPass sch entries).2 with
    | error e =>
      rw [hc] at h
      exact absurd h (by simp)
    | ok u =>
      rw [hc] at h
      injection h with h
      subst h
      exact ⟨herr, rfl, u, hc⟩

/-- `to_json` never turns a present value into `None`. -/
theorem to_json_not_null (a : EAVAttr) (w : JVal) (hw : w.isNull = false) :
    (a.to_json w).isNull = false := by
  cases a with
  | string o ml => exact hw
  | boolean o => exact hw
  | integer o mn mx => exact hw
  | float o mn mx => exact hw
  | decimal o md dp mn mx =>
    cases w with
    | null => simp [JVal.isNull] at hw
    | dec dd => rfl
    | bool b => rfl
    | int n => rfl
    | float x => rfl
    | str s => rfl
    | arr xs => rfl
    | obj kvs => rfl

theorem fieldStep_skip (entries : List (Str × JVal))
    (st : ErrDict × List (Str × JVal)) (p : Str × EAVAttr)
    (hv : p.2.validate (dget entries p.1) = .ok .null) :
    fieldStep entries st p = (st.1, st.2) := by
  unfold fieldStep
  rw [hv]
  rfl

theorem fieldStep_err (entries : List (Str × JVal))
    (st : ErrDict × List (Str × JVal)) (p : Str × EAVAttr) (msgs : List Str)
    (hv : p.2.validate (dget entries p.1) = .error msgs) :
    fieldStep entries st p = (odExtend st.1 p.1 msgs, st.2) := by
  unfold fieldStep
  rw [hv]

theorem fieldStep_store (entries : List (Str × JVal))
    (st : ErrDict × List (Str × JVal)) (p : Str × EAVAttr) (v : JVal)
    (hv : p.2.validate (dget entries p.1) = .ok v) (hn : v.isNull = false) :
    fieldStep entries st p = (st.1, odAssign st.2 p.1 (p.2.to_json v)) := by
  unfold fieldStep
  rw [hv]
  show (st.1, if v.isNull = true then st.2 else odAssign st.2 p.1 (p.2.to_json v)) = _
  rw [hn]
  simp

theorem fieldStep_cleaned_keys (entries : List (Str × JVal))
    (st : ErrDict × List (Str × JVal)) (p : Str × EAVAttr) (q : Str)
    (h : q ∈ ((fieldStep entries st p).2).map Prod.fst) :
    q ∈ st.2.map Prod.fst ∨ q = p.1 := by
  cases hv : p.2.validate (dget entries p.1) with
  | ok v =>
    by_cases hn : v.isNull = true
    · rw [show v = .null by cases v <;> first | rfl | simp [JVal.isNull] at hn] at hv
      rw [fieldStep_skip entries st p hv] at h
      exact Or.inl h
    · rw [fieldStep_store entries st p v hv (by simpa using hn)] at h
      exact odAssign_keys _ _ _ _ h
  | error msgs =>
    rw [fieldStep_err entries st p msgs hv] at h
    exact Or.inl h

theorem foldl_fieldStep_cleaned_notnull (entries : List (Str × JVal))
    (l : List (Str × EAVAttr)) (st : ErrDict × List (Str × JVal))
    (h0 : ∀ p ∈ st.2, (p.2 : JVal).isNull = false) :
    ∀ p ∈ (l.foldl (fieldStep entries) st).2, (p.2 : JVal).isNull = false := by
  induction l generalizing st with
  | nil => exact h0
  | cons q rest ih =>
    simp only [List.foldl_cons]
    refine ih _ ?_
    intro p hp
    cases hv : q.2.validate (dget entries q.1) with
    | ok v =>
      by_cases hn : v.isNull = true
      · rw [show v = .null by cases v <;> first | rfl | simp [JVal.isNull] at hn] at hv
        rw [fieldStep_skip entries st q hv] at hp
        exact h0 p hp
      · rw [fieldStep_store entries st q v hv (by simpa using hn)] at hp
        rcases mem_odAssign _ _ _ _ hp with h' | h'
        · exact h0 p h'
        · rw [h']
          exact to_json_not_null _ _ (by simpa using hn)
    | error msgs =>
      rw [fieldStep_err entries st q msgs hv] at hp
      exact h0 p hp

theorem foldl_fieldStep_cleaned_absent (entries : List (Str × JVal))
    (l : List (Str × EAVAttr)) (st : ErrDict × List (Str × JVal)) (q : Str)
    (a : EAVAttr) (hnd : (l.map Prod.fst).Nodup) (hmem : (q, a) ∈ l)
    (hv : a.validate (dget entries q) = .ok .null)
    (h0 : q ∉ st.2.map Prod.fst) :
    q ∉ ((l.foldl (fieldStep entries) st).2).map Prod.fst := by
  induction l generalizing st with
  | nil => exact absurd hmem (List.not_mem_nil _)
  | cons p rest ih =>
    simp only [List.map_cons, List.nodup_cons] at hnd
    rcases List.mem_cons.mp hmem with rfl | hmem'
    · simp only [List.foldl_cons]
      intro hcon
      rcases foldl_fieldStep_cleaned_keys entries rest _ q hcon with h' | h'
      · rw [fieldStep_skip entries st (q, a) hv] at h'
        exact h0 h'
      · exact hnd.1 h'
    · simp only [List.foldl_cons]
      have hne : q ≠ p.1 := by
        intro he
        exact hnd.1 (he ▸ (List.mem_map.mpr ⟨(q, a), hmem', by rw [he]⟩))
      refine ih _ hnd.2 hmem' ?_
      intro hcon
      rcases fieldStep_cleaned_keys entries st p q hcon with h' | h'
      · exact h0 h'
      · exact hne h' 

/-- **C8**: on success, the cleaned mapping contains only declared
attribute names, never maps a key to `None`, and omits entirely every
declared attribute whose validated value is absent. -/
theorem C8_cleaned_shape :
    ∀ (sch : Schema) (entries c : List (Str × JVal)),
      sch.validate (.obj entries) = .ok c →
      (∀ k, k ∈ c.map Prod.fst → k ∈ sch.attrs.map Prod.fst) ∧
      (∀ p ∈ c, (p.2 : JVal).isNull = false) ∧
      (∀ (nm : Str) (a : EAVAttr), (sch.attrs.map Prod.fst).Nodup →
        (nm, a) ∈ sch.attrs → a.validate (dget entries nm) = .ok .null →
        nm ∉ c.map Prod.fst) := by
  intro sch entries c h
  obtain ⟨herr, hcl, _⟩ := validate_obj_ok sch entries c h
  subst hcl
  refine ⟨?_, ?_, ?_⟩
  · intro k hk
    rcases foldl_fieldStep_cleaned_keys entries sch.attrs _ k hk with h' | h'
    · exact absurd h' (by simp)
    · exact h'
  · exact foldl_fieldStep_cleaned_notnull entries sch.attrs _ (by simp)
  · intro nm a hnd hmem hva
    exact foldl_fieldStep_cleaned_absent entries sch.attrs _ nm a hnd hmem hva
      (by simp)

/-- Witness for C8: on the schema `{name : String, note : String?}`,
validating `{"name": "test"}` omits `note` from the cleaned dict. -/
theorem C8_cleaned_shape_witness :
    "note".data ∉
      (List.map Prod.fst [("name".data, JVal.str "test".data)]) := by
  refine (C8_cleaned_shape
      { attrs := [("name".data, EAVAttr.string {name := "name".data} none),
                  ("note".data, EAVAttr.string {name := "note".data, required := false} none)] }
      [("name".data, .str "test".data)] [("name".data, .str "test".data)]
      (by rfl)).2.2 "note".data
      (EAVAttr.string {name := "note".data, required := false} none)
      (by decide) ?_ (by rfl)
  exact List.mem_cons_of_mem _ (List.mem_cons_self _ _)

/-!
## C10: an explicit `None` value is indistinguishable from an absent key
-/

theorem dget_append_null (entries : List (Str × JVal)) (k kq : Str) :
    dget (entries ++ [(k, JVal.null)]) kq = dget entries kq := by
  unfold dget
  rw [alookup_append]
  cases h : alookup entries kq with
  | some v => rfl
  | none =>
    unfold alookup
    by_cases hk : k = kq
    · rw [if_pos hk]
      rfl
    · rw [if_neg hk]
      rfl

theorem unknownKeys_append_null (sch : Schema) (entries : List (Str × JVal))
    (k : Str) (hk : k ∈ sch.attrs.map Prod.fst) :
    unknownKeys sch (entries ++ [(k, JVal.null)]) = unknownKeys sch entries := by
  unfold unknownKeys
  congr 1
  rw [List.map_append, List.filter_append]
  have hpk : decide (k ∉ sch.attrs.map Prod.fst) = false := by
    simp [hk]
  simp only [List.map_cons, List.map_nil, List.filter, hpk, List.append_nil]

theorem unknownErrors_append_null (sch : Schema) (entries : List (Str × JVal))
    (k : Str) (hk : k ∈ sch.attrs.map Prod.fst) :
    unknownErrors sch (entries ++ [(k, JVal.null)]) = unknownErrors sch entries := by
  unfold unknownErrors
  rw [unknownKeys_append_null sch entries k hk]

theorem fieldPass_append_null (sch : Schema) (entries : List (Str × JVal))
    (k : Str) (hk : k ∈ sch.attrs.map Prod.fst) :
    fieldPass sch (entries ++ [(k, JVal.null)]) = fieldPass sch entries := by
  unfold fieldPass
  rw [unknownErrors_append_null sch entries k hk]
  refine List.foldl_ext _ _ _ ?_
  intro st p hp
  unfold fieldStep
  rw [dget_append_null]

/-- **C10**: at the `validate` interface an explicit `None` value for a
declared attribute is indistinguishable from an absent key: appending
`k: None` for a declared `k` leaves the whole result (cleaned dict or
error report) unchanged; on a `None` input an attribute returns its
default untouched whenever it is optional or has one (no type check ever
runs), and raises the `required` error exactly when it is required with
no default. -/
theorem C10_null_absent :
    (∀ (sch : Schema) (entries : List (Str × JVal)) (k : Str),
      k ∈ sch.attrs.map Prod.fst →
      sch.validate (.obj (entries ++ [(k, JVal.null)])) =
        sch.validate (.obj entries)) ∧
    (∀ a : EAVAttr, a.required = false ∨ a.default.isNull = false →
      a.validate .null = .ok a.default) ∧
    (∀ a : EAVAttr, a.required = true → a.default.isNull = true →
      a.validate .null = .error [a.name ++ " is required.".data]) := by
  refine ⟨?_, ?_, ?_⟩
  · intro sch entries k hk
    rw [validate_obj_eq, validate_obj_eq, fieldPass_append_null sch entries k hk]
  · intro a h
    have hb : (a.required && a.default.isNull) = false := by
      rcases h with h | h <;> simp [h]
    show (if a.required && a.default.isNull then
        (Except.error [a.name ++ " is required.".data] : Except (List Str) JVal)
      else .ok a.default) = .ok a.default
    rw [hb]
    rfl
  · intro a h1 h2
    have hb : (a.required && a.default.isNull) = true := by
      simp [h1, h2]
    show (if a.required && a.default.isNull then
        (Except.error [a.name ++ " is required.".data] : Except (List Str) JVal)
      else .ok a.default) = .error [a.name ++ " is required.".data]
    rw [hb]
    rfl

/-- Witness for C10 on the one-attribute schema `{a : String}`. -/
theorem C10_null_absent_witness :
    ((Schema.mk [("a".data, EAVAttr.string {name := "a".data, required := false} none)]
        (fun _ => .ok ())).validate (.obj [("a".data, JVal.null)]) =
      (Schema.mk [("a".data, EAVAttr.string {name := "a".data, required := false} none)]
        (fun _ => .ok ())).validate (.obj [])) ∧
    ((EAVAttr.string {name := "a".data, required := false} none).validate .null =
      .ok JVal.null) ∧
    ((EAVAttr.string {name := "a".data} none).validate .null =
      .error ["a".data ++ " is required.".data]) :=
  ⟨C10_null_absent.1 _ [] "a".data (by decide),
   C10_null_absent.2.1 _ (Or.inl rfl),
   C10_null_absent.2.2 _ rfl rfl⟩

/-!
## C5: metaclass inheritance merge
-/

theorem alookup_foldl_assignf {V : Type} (f : Str × V → V) (l : List (Str × V)) :
    ∀ (m : List (Str × V)) (k : Str),
      alookup (l.foldl (fun acc p => odAssign acc p.1 (f p)) m) k =
        match alookup l.reverse k with
        | some v => some (f (k, v))
        | none => alookup m k := by
  induction l with
  | nil =>
    intro m k
    simp [alookup]
  | cons p rest ih =>
    intro m k
    simp only [List.foldl_cons, List.reverse_cons]
    rw [ih (odAssign m p.1 (f p)) k, alookup_append]
    cases h : alookup rest.reverse k with
    | some v => rfl
    | none =>
      rw [alookup_odAssign]
      by_cases hk : k = p.1
      · subst hk
        rw [if_pos rfl]
        simp [alookup]
      · rw [if_neg hk]
        simp only [alookup]
        rw [if_neg (fun he => hk he.symm)]

theorem alookup_odUpdate {V : Type} (m other : List (Str × V)) (k : Str) :
    alookup (odUpdate m other) k =
      match alookup other.reverse k with
      | some v => some v
      | none => alookup m k :=
  alookup_foldl_assignf (fun p => p.2) other m k

theorem alookup_mergedAttrs_own (parents : List (List (Str × EAVAttr)))
    (own : List (Str × EAVAttr)) (k : Str) (a : EAVAttr)
    (h : alookup own.reverse k = some a) :
    alookup (mergedAttrs parents own) k = some (a.setName k) := by
  have h2 := alookup_foldl_assignf (fun p => p.2.setName p.1) own
    (parents.foldl odUpdate []) k
  rw [h] at h2
  exact h2

theorem alookup_mergedAttrs_parent (ps : List (List (Str × EAVAttr)))
    (pa : List (Str × EAVAttr)) (own : List (Str × EAVAttr)) (k : Str)
    (v : EAVAttr) (hown : alookup own.reverse k = none)
    (hp : alookup pa.reverse k = some v) :
    alookup (mergedAttrs (ps ++ [pa]) own) k = some v := by
  have h2 := alookup_foldl_assignf (fun p => p.2.setName p.1) own
    ((ps ++ [pa]).foldl odUpdate []) k
  rw [hown] at h2
  have h3 : alookup ((ps ++ [pa]).foldl odUpdate []) k = some v := by
    rw [List.foldl_append]
    show alookup (odUpdate (ps.foldl odUpdate []) pa) k = some v
    rw [alookup_odUpdate, hp]
  exact h2.trans h3

theorem odAssign_keys_nodup {V : Type} (m : List (Str × V)) (k : Str) (v : V)
    (h : (m.map Prod.fst).Nodup) : ((odAssign m k v).map Prod.fst).Nodup := by
  unfold odAssign
  by_cases hs : (alookup m k).isSome
  · rw [if_pos hs]
    have heq : (m.map (fun p => if p.1 = k then (k, v) else p)).map Prod.fst =
        m.map Prod.fst := by
      rw [List.map_map]
      apply List.map_congr_left
      intro p hp
      by_cases hpk : p.1 = k
      · simp [Function.comp, hpk]
      · simp [Function.comp, hpk]
    rw [heq]
    exact h
  · rw [if_neg hs]
    have hk : k ∉ m.map Prod.fst := by
      refine (alookup_eq_none m k).mp ?_
      cases halt : alookup m k with
      | none => rfl
      | some w => exact absurd (by rw [halt]; rfl) hs
    rw [List.map_append]
    simp [List.nodup_append, h, hk]

theorem foldl_assignf_keys_nodup {V : Type} (f : Str × V → V)
    (l : List (Str × V)) :
    ∀ (m : List (Str × V)), (m.map Prod.fst).Nodup →
      (((l.foldl (fun acc p => odAssign acc p.1 (f p)) m)).map Prod.fst).Nodup := by
  induction l with
  | nil => exact fun m h => h
  | cons p rest ih =>
    intro m h
    exact ih _ (odAssign_keys_nodup m p.1 (f p) h)

theorem foldl_odUpdate_keys_nodup {V : Type} (ps : List (List (Str × V))) :
    ∀ (m : List (Str × V)), (m.map Prod.fst).Nodup →
      ((ps.foldl odUpdate m).map Prod.fst).Nodup := by
  induction ps with
  | nil => exact fun m h => h
  | cons pa rest ih =>
    intro m h
    exact ih _ (foldl_assignf_keys_nodup (fun p => p.2) pa m h)

theorem mergedAttrs_keys_nodup (parents : List (List (Str × EAVAttr)))
    (own : List (Str × EAVAttr)) :
    ((mergedAttrs parents own).map Prod.fst).Nodup := by
  unfold mergedAttrs
  exact foldl_assignf_keys_nodup (fun p => p.2.setName p.1) own
    (parents.foldl odUpdate []) (foldl_odUpdate_keys_nodup parents [] (by simp))

theorem alookup_of_mem_nodup {V : Type} (m : List (Str × V)) (k : Str) (v : V)
    (hnd : (m.map Prod.fst).Nodup) (hm : (k, v) ∈ m) : alookup m k = some v := by
  induction m with
  | nil => exact absurd hm (List.not_mem_nil _)
  | cons p rest ih =>
    simp only [List.map_cons, List.nodup_cons] at hnd
    rcases List.mem_cons.mp hm with rfl | hm'
    · show (if k = k then some v else alookup rest k) = some v
      rw [if_pos rfl]
    · have hkm : k ∈ rest.map Prod.fst := List.mem_map.mpr ⟨(k, v), hm', rfl⟩
      have hne : p.1 ≠ k := fun he => hnd.1 (he ▸ hkm)
      show (if p.1 = k then some p.2 else alookup rest k) = some v
      rw [if_neg hne]
      exact ih hnd.2 hm'

/-- **C5**: the metaclass merge: a directly-declared descriptor always
wins for its name (independently of the parents) and is stored with its
`name` set to its key; with no own declaration the last parent binding
the name wins; the merged set never repeats a name, so every merged
entry under an own-declared name is exactly the child's renamed
descriptor (validation of that field therefore uses only the child's
constraints); and `get_attributes` hands back a schema's merged set
unchanged. -/
theorem C5_inheritance_merge :
    (∀ (parents : List (List (Str × EAVAttr))) (own : List (Str × EAVAttr))
        (k : Str) (a : EAVAttr), alookup own.reverse k = some a →
      alookup (mergedAttrs parents own) k = some (a.setName k)) ∧
    (∀ (ps : List (List (Str × EAVAttr))) (pa own : List (Str × EAVAttr))
        (k : Str) (v : EAVAttr), alookup own.reverse k = none →
      alookup pa.reverse k = some v →
      alookup (mergedAttrs (ps ++ [pa]) own) k = some v) ∧
    (∀ (parents : List (List (Str × EAVAttr))) (own : List (Str × EAVAttr)),
      ((mergedAttrs parents own).map Prod.fst).Nodup) ∧
    (∀ (parents : List (List (Str × EAVAttr))) (own : List (Str × EAVAttr))
        (k : Str) (a c : EAVAttr), alookup own.reverse k = some a →
      (k, c) ∈ mergedAttrs parents own → c = a.setName k) ∧
    (∀ (m : List (Str × EAVAttr))
        (cr : List (Str × JVal) → Except ErrDict Unit),
      (Schema.mk m cr).get_attributes = m) := by
  refine ⟨alookup_mergedAttrs_own, alookup_mergedAttrs_parent, mergedAttrs_keys_nodup,
    ?_, fun m cr => rfl⟩
  intro parents own k a c h hmem
  have h1 := alookup_mergedAttrs_own parents own k a h
  have h2 := alookup_of_mem_nodup (mergedAttrs parents own) k c
    (mergedAttrs_keys_nodup parents own) hmem
  rw [h1] at h2
  exact (Option.some.inj h2).symm

/-- Witness for C5: a child redeclaring `x : Integer` (inherited) as
`x : String` looks up its own renamed string descriptor, while with no
own declaration the parent's descriptor survives. -/
theorem C5_inheritance_merge_witness :
    (alookup (mergedAttrs [[("x".data, EAVAttr.integer {} none none)]]
        [("x".data, EAVAttr.string {} (some 3))]) "x".data =
      some ((EAVAttr.string {} (some 3)).setName "x".data)) ∧
    (alookup (mergedAttrs [[("x".data, EAVAttr.integer {} none none)]] [])
        "x".data = some (EAVAttr.integer {} none none)) ∧
    ((EAVAttr.string {} (some 3)).setName "x".data =
      (EAVAttr.string {} (some 3)).setName "x".data) :=
  ⟨C5_inheritance_merge.1 [[("x".data, EAVAttr.integer {} none none)]]
      [("x".data, EAVAttr.string {} (some 3))] "x".data
      (EAVAttr.string {} (some 3)) rfl,
   C5_inheritance_merge.2.1 [] [("x".data, EAVAttr.integer {} none none)] []
      "x".data (EAVAttr.integer {} none none) rfl rfl,
   C5_inheritance_merge.2.2.2.1 [[("x".data, EAVAttr.integer {} none none)]]
      [("x".data, EAVAttr.string {} (some 3))] "x".data
      (EAVAttr.string {} (some 3))
      ((EAVAttr.string {} (some 3)).setName "x".data) rfl
      (by
        have h := C5_inheritance_merge.1 [[("x".data, EAVAttr.integer {} none none)]]
          [("x".data, EAVAttr.string {} (some 3))] "x".data
          (EAVAttr.string {} (some 3)) rfl
        exact alookup_mem _ _ _ h)⟩

/-!
## C9: defaults on empty input and idempotence of `Schema.validate`
-/

theorem to_json_null (a : EAVAttr) : a.to_json .null = .null := by
  cases a <;> rfl

theorem validate_null_of_default (a : EAVAttr) (hd : a.default.isNull = false) :
    a.validate .null = .ok a.default := by
  have hb : (a.required && a.default.isNull) = false := by simp [hd]
  show (if a.required && a.default.isNull then
      (Except.error [a.name ++ " is required.".data] : Except (List Str) JVal)
    else .ok a.default) = .ok a.default
  rw [hb]
  rfl

theorem validate_null_val (a : EAVAttr) (u v : JVal) (hu : u.isNull = true)
    (h : a.validate u = .ok v) : v = a.default := by
  unfold EAVAttr.validate at h
  rw [hu] at h
  rw [if_pos rfl] at h
  by_cases hr : (a.required && a.default.isNull) = true
  · rw [if_pos hr] at h
    exact Except.noConfusion h
  · rw [if_neg hr] at h
    exact (Except.ok.inj h).symm

theorem validate_null_again (a : EAVAttr) (u : JVal) (hu : u.isNull = true)
    (h : a.validate u = .ok .null) : a.validate .null = .ok .null := by
  have hd := validate_null_val a u .null hu h
  unfold EAVAttr.validate at h
  rw [hu] at h
  rw [if_pos rfl] at h
  show (if a.required && a.default.isNull then
      (Except.error [a.name ++ " is required.".data] : Except (List Str) JVal)
    else .ok a.default) = .ok .null
  by_cases hr : (a.required && a.default.isNull) = true
  · rw [if_pos hr] at h
    exact Except.noConfusion h
  · rw [if_neg hr] at h
    rw [if_neg hr]
    exact h

theorem dget_WF (entries : List (Str × JVal)) (k : Str)
    (hWF : ∀ q ∈ entries, ∀ dd, (q.2 : JVal) = .dec dd → dd.WF) :
    ∀ dd, dget entries k = .dec dd → dd.WF := by
  intro dd h
  unfold dget at h
  cases ha : alookup entries k with
  | none =>
    rw [ha] at h
    exact absurd h (fun hc => JVal.noConfusion hc)
  | some u =>
    rw [ha] at h
    exact hWF (k, u) (alookup_mem _ _ _ ha) dd h

theorem odExtend_ne_nil (m : List (Str × List Str)) (k : Str)
    (msgs : List Str) : odExtend m k msgs ≠ [] := by
  unfold odExtend
  by_cases hs : (alookup m k).isSome
  · rw [if_pos hs]
    cases m with
    | nil => exact absurd hs (by simp [alookup])
    | cons p rest => simp
  · rw [if_neg hs]
    simp

theorem fieldStep_ok_errs (entries : List (Str × JVal))
    (st : ErrDict × List (Str × JVal)) (p : Str × EAVAttr) (v : JVal)
    (hv : p.2.validate (dget entries p.1) = .ok v) :
    (fieldStep entries st p).1 = st.1 := by
  unfold fieldStep
  rw [hv]

theorem foldl_fieldStep_errs_of_ok (entries : List (Str × JVal))
    (l : List (Str × EAVAttr)) :
    ∀ (st : ErrDict × List (Str × JVal)),
      (∀ p ∈ l, ∃ v, (p.2 : EAVAttr).validate (dget entries p.1) = .ok v) →
      (l.foldl (fieldStep entries) st).1 = st.1 := by
  induction l with
  | nil => exact fun st _ => rfl
  | cons p rest ih =>
    intro st h
    obtain ⟨v, hv⟩ := h p (List.mem_cons_self _ _)
    simp only [List.foldl_cons]
    rw [ih _ (fun q hq => h q (List.mem_cons_of_mem _ hq))]
    exact fieldStep_ok_errs entries st p v hv

theorem foldl_fieldStep_errs_nonnil (entries : List (Str × JVal))
    (l : List (Str × EAVAttr)) :
    ∀ (st : ErrDict × List (Str × JVal)), st.1 ≠ [] →
      (l.foldl (fieldStep entries) st).1 ≠ [] := by
  induction l with
  | nil => exact fun st h => h
  | cons p rest ih =>
    intro st h
    simp only [List.foldl_cons]
    refine ih _ ?_
    cases hv : p.2.validate (dget entries p.1) with
    | ok v =>
      rw [fieldStep_ok_errs entries st p v hv]
      exact h
    | error msgs =>
      rw [fieldStep_err entries st p msgs hv]
      exact odExtend_ne_nil st.1 p.1 msgs

theorem foldl_fieldStep_errs_nil (entries : List (Str × JVal))
    (l : List (Str × EAVAttr)) :
    ∀ (st : ErrDict × List (Str × JVal)),
      (l.foldl (fieldStep entries) st).1 = [] →
      st.1 = [] ∧
        ∀ p ∈ l, ∃ v, (p.2 : EAVAttr).validate (dget entries p.1) = .ok v := by
  induction l with
  | nil =>
    intro st h
    exact ⟨h, fun p hp => absurd hp (List.not_mem_nil _)⟩
  | cons p rest ih =>
    intro st h
    simp only [List.foldl_cons] at h
    cases hv : p.2.validate (dget entries p.1) with
    | ok v =>
      obtain ⟨h1, h2⟩ := ih _ h
      rw [fieldStep_ok_errs entries st p v hv] at h1
      refine ⟨h1, fun q hq => ?_⟩
      rcases List.mem_cons.mp hq with rfl | hq'
      · exact ⟨v, hv⟩
      · exact h2 q hq'
    | error msgs =>
      exfalso
      refine foldl_fieldStep_errs_nonnil entries rest _ ?_ h
      rw [fieldStep_err entries st p msgs hv]
      exact odExtend_ne_nil st.1 p.1 msgs

/-- The per-attribute contribution to the cleaned dict: `None` result or
validation failure contributes nothing, otherwise the serialized value
under the attribute's name. -/
def cleanEntry (entries : List (Str × JVal)) (p : Str × EAVAttr) :
    Option (Str × JVal) :=
  match p.2.validate (dget entries p.1) with
  | .ok v => if v.isNull then none else some (p.1, p.2.to_json v)
  | .error _ => none

/-- The cleaned dict produced by the attribute loop, as a `filterMap`. -/
def cleanList (l : List (Str × EAVAttr)) (entries : List (Str × JVal)) :
    List (Str × JVal) :=
  l.filterMap (cleanEntry entries)

theorem cleanEntry_err (entries : List (Str × JVal)) (p : Str × EAVAttr)
    (msgs : List Str) (hv : p.2.validate (dget entries p.1) = .error msgs) :
    cleanEntry entries p = none := by
  unfold cleanEntry
  rw [hv]

theorem cleanEntry_skip (entries : List (Str × JVal)) (p : Str × EAVAttr)
    (hv : p.2.validate (dget entries p.1) = .ok .null) :
    cleanEntry entries p = none := by
  unfold cleanEntry
  rw [hv]
  rfl

theorem cleanEntry_store (entries : List (Str × JVal)) (p : Str × EAVAttr)
    (v : JVal) (hv : p.2.validate (dget entries p.1) = .ok v)
    (hn : v.isNull = false) :
    cleanEntry entries p = some (p.1, p.2.to_json v) := by
  unfold cleanEntry
  rw [hv]
  show (if v.isNull = true then none else some (p.1, p.2.to_json v)) = _
  rw [hn]
  rfl

theorem cleanList_cons_none (entries : List (Str × JVal)) (p : Str × EAVAttr)
    (rest : List (Str × EAVAttr)) (hce : cleanEntry entries p = none) :
    cleanList (p :: rest) entries = cleanList rest entries := by
  unfold cleanList
  rw [List.filterMap_cons, hce]

theorem cleanList_cons_some (entries : List (Str × JVal)) (p : Str × EAVAttr)
    (rest : List (Str × EAVAttr)) (b : Str × JVal)
    (hce : cleanEntry entries p = some b) :
    cleanList (p :: rest) entries = b :: cleanList rest entries := by
  unfold cleanList
  rw [List.filterMap_cons, hce]

theorem foldl_fieldStep_cleaned_eq (entries : List (Str × JVal))
    (l : List (Str × EAVAttr)) :
    ∀ (errs : ErrDict) (done : List (Str × JVal)),
      (l.map Prod.fst).Nodup →
      (∀ k ∈ l.map Prod.fst, k ∉ done.map Prod.fst) →
      (l.foldl (fieldStep entries) (errs, done)).2 =
        done ++ cleanList l entries := by
  induction l with
  | nil =>
    intro errs done _ _
    simp [cleanList]
  | cons p rest ih =>
    intro errs done hnd hdisj
    simp only [List.map_cons, List.nodup_cons] at hnd
    simp only [List.foldl_cons]
    cases hv : p.2.validate (dget entries p.1) with
    | error msgs =>
      rw [fieldStep_err entries (errs, done) p msgs hv]
      rw [ih _ done hnd.2
        (fun k hk => hdisj k (List.mem_cons_of_mem _ hk))]
      rw [cleanList_cons_none entries p rest (cleanEntry_err entries p msgs hv)]
    | ok v =>
      by_cases hn : v.isNull = true
      · have hvn : v = .null := by
          cases v <;> first | rfl | simp [JVal.isNull] at hn
        subst hvn
        rw [fieldStep_skip entries (errs, done) p hv]
        rw [ih _ done hnd.2
          (fun k hk => hdisj k (List.mem_cons_of_mem _ hk))]
        rw [cleanList_cons_none entries p rest (cleanEntry_skip entries p hv)]
      · have hnf : v.isNull = false := by simpa using hn
        rw [fieldStep_store entries (errs, done) p v hv hnf]
        have hfresh : p.1 ∉ done.map Prod.fst :=
          hdisj p.1 (List.mem_cons_self _ _)
        rw [odAssign_fresh done p.1 _ hfresh]
        rw [ih _ _ hnd.2 ?_]
        · rw [cleanList_cons_some entries p rest _
            (cleanEntry_store entries p v hv hnf)]
          rw [List.append_assoc]
          rfl
        · intro k hk
          rw [List.map_append]
          intro hkin
          rcases List.mem_append.mp hkin with h' | h'
          · exact hdisj k (List.mem_cons_of_mem _ hk) h'
          · simp only [List.map_cons, List.map_nil, List.mem_singleton] at h'
            exact hnd.1 (h' ▸ hk)

theorem cleanList_keys_sublist (l : List (Str × EAVAttr))
    (entries : List (Str × JVal)) :
    ((cleanList l entries).map Prod.fst).Sublist (l.map Prod.fst) := by
  induction l with
  | nil => simp [cleanList]
  | cons p rest ih =>
    cases hv : p.2.validate (dget entries p.1) with
    | error msgs =>
      rw [cleanList_cons_none entries p rest (cleanEntry_err entries p msgs hv)]
      exact ih.cons p.1
    | ok v =>
      by_cases hn : v.isNull = true
      · have hvn : v = .null := by
          cases v <;> first | rfl | simp [JVal.isNull] at hn
        subst hvn
        rw [cleanList_cons_none entries p rest (cleanEntry_skip entries p hv)]
        exact ih.cons p.1
      · have hnf : v.isNull = false := by simpa using hn
        rw [cleanList_cons_some entries p rest _
          (cleanEntry_store entries p v hv hnf)]
        simp only [List.map_cons]
        exact ih.cons₂ p.1

theorem mem_cleanList (l : List (Str × EAVAttr)) (entries : List (Str × JVal))
    (k : Str) (x : JVal) (h : (k, x) ∈ cleanList l entries) :
    ∃ a v, (k, a) ∈ l ∧ a.validate (dget entries k) = .ok v ∧
      v.isNull = false ∧ x = a.to_json v := by
  induction l with
  | nil => exact absurd h (by simp [cleanList])
  | cons p rest ih =>
    cases hv : p.2.validate (dget entries p.1) with
    | error msgs =>
      rw [cleanList_cons_none entries p rest (cleanEntry_err entries p msgs hv)] at h
      obtain ⟨a, v, hm, h2, h3, h4⟩ := ih h
      exact ⟨a, v, List.mem_cons_of_mem _ hm, h2, h3, h4⟩
    | ok v =>
      by_cases hn : v.isNull = true
      · have hvn : v = .null := by
          cases v <;> first | rfl | simp [JVal.isNull] at hn
        subst hvn
        rw [cleanList_cons_none entries p rest (cleanEntry_skip entries p hv)] at h
        obtain ⟨a, v, hm, h2, h3, h4⟩ := ih h
        exact ⟨a, v, List.mem_cons_of_mem _ hm, h2, h3, h4⟩
      · have hnf : v.isNull = false := by simpa using hn
        rw [cleanList_cons_some entries p rest _
          (cleanEntry_store entries p v hv hnf)] at h
        rcases List.mem_cons.mp h with he | h'
        · obtain ⟨hk, hx⟩ := Prod.mk.inj he
          subst hk
          exact ⟨p.2, v, List.mem_cons_self _ _, hv, hnf, hx⟩
        · obtain ⟨a, v2, hm, h2, h3, h4⟩ := ih h'
          exact ⟨a, v2, List.mem_cons_of_mem _ hm, h2, h3, h4⟩

theorem cleanList_mem_of (l : List (Str × EAVAttr))
    (entries : List (Str × JVal)) (k : Str) (a : EAVAttr) (v : JVal)
    (hm : (k, a) ∈ l) (hv : a.validate (dget entries k) = .ok v)
    (hn : v.isNull = false) :
    (k, a.to_json v) ∈ cleanList l entries := by
  induction l with
  | nil => exact absurd hm (List.not_mem_nil _)
  | cons p rest ih =>
    rcases List.mem_cons.mp hm with rfl | hm'
    · rw [cleanList_cons_some entries (k, a) rest _
        (cleanEntry_store entries (k, a) v hv hn)]
      exact List.mem_cons_self _ _
    · cases hv2 : p.2.validate (dget entries p.1) with
      | error msgs =>
        rw [cleanList_cons_none entries p rest (cleanEntry_err entries p msgs hv2)]
        exact ih hm'
      | ok v2 =>
        by_cases hn2 : v2.isNull = true
        · have hvn : v2 = .null := by
            cases v2 <;> first | rfl | simp [JVal.isNull] at hn2
          subst hvn
          rw [cleanList_cons_none entries p rest (cleanEntry_skip entries p hv2)]
          exact ih hm'
        · have hnf2 : v2.isNull = false := by simpa using hn2
          rw [cleanList_cons_some entries p rest _
            (cleanEntry_store entries p v2 hv2 hnf2)]
          exact List.mem_cons_of_mem _ (ih hm')

theorem cleanList_not_mem (l : List (Str × EAVAttr))
    (entries : List (Str × JVal)) (k : Str) (a : EAVAttr)
    (hnd : (l.map Prod.fst).Nodup) (hm : (k, a) ∈ l)
    (hv : a.validate (dget entries k) = .ok .null) :
    k ∉ (cleanList l entries).map Prod.fst := by
  intro hcon
  obtain ⟨q, hqm, hqk⟩ := List.mem_map.mp hcon
  obtain ⟨a2, v, hm2, hv2, hn2, -⟩ :=
    mem_cleanList l entries q.1 q.2 ((Prod.mk.eta (p := q)) ▸ hqm)
  rw [hqk] at hm2 hv2
  have h1 := alookup_of_mem_nodup l k a hnd hm
  have h2 := alookup_of_mem_nodup l k a2 hnd hm2
  rw [h1] at h2
  have ha : a = a2 := Option.some.inj h2
  rw [← ha] at hv2
  rw [hv] at hv2
  have hv3 : JVal.null = v := Except.ok.inj hv2
  rw [← hv3] at hn2
  exact absurd hn2 (by simp [JVal.isNull])

theorem cleanList_defaults (l : List (Str × EAVAttr))
    (hdef : ∀ p ∈ l, ((p.2 : EAVAttr).default).isNull = false) :
    cleanList l [] = l.map (fun p => (p.1, p.2.to_json p.2.default)) := by
  induction l with
  | nil => simp [cleanList]
  | cons p rest ih =>
    have hd := hdef p (List.mem_cons_self _ _)
    have hv : p.2.validate (dget [] p.1) = .ok p.2.default :=
      validate_null_of_default p.2 hd
    rw [cleanList_cons_some [] p rest _ (cleanEntry_store [] p _ hv hd)]
    rw [ih (fun q hq => hdef q (List.mem_cons_of_mem _ hq))]
    rfl

/-- Counterexample to C9 as stated: a constraint-violating default
(`EAVString(max_length=1, required=False, default="ab")`) makes
`validate({})` succeed with the default, but re-validating that output
fails the max-length check, so `validate(validate(x)) ≠ validate(x)`
even though `validate` accepted `x = {}`. -/
theorem C9_counterexample :
    ((Schema.mk [("a".data, EAVAttr.string
        {name := "a".data, required := false, default := .str "ab".data}
        (some 1))] (fun _ => .ok ())).validate (.obj []) =
      .ok [("a".data, JVal.str "ab".data)]) ∧
    ((Schema.mk [("a".data, EAVAttr.string
        {name := "a".data, required := false, default := .str "ab".data}
        (some 1))] (fun _ => .ok ())).validate
        (.obj [("a".data, JVal.str "ab".data)]) =
      .error [("a".data, ["a must be at most 1 characters.".data])]) ∧
    ((Except.error [("a".data, ["a must be at most 1 characters.".data])] :
        Except ErrDict (List (Str × JVal))) ≠
      .ok [("a".data, JVal.str "ab".data)]) :=
  ⟨rfl, rfl, fun h => Except.noConfusion h⟩

/-- **C9** (amended): on a schema whose attributes all carry a non-`None`
default, validating `{}` yields exactly each attribute name mapped to its
serialized default (provided the cross hook accepts it); and `validate`
is idempotent on any accepted input provided each attribute's serialized
default re-validates to a value with the same serialization — without
that proviso idempotence fails, since defaults bypass coercion and
constraint checks. -/
theorem C9_defaults_idempotence :
    (∀ (sch : Schema),
      (sch.attrs.map Prod.fst).Nodup →
      (∀ p ∈ sch.attrs, ((p.2 : EAVAttr).default).isNull = false) →
      sch.cross (sch.attrs.map (fun p => (p.1, p.2.to_json p.2.default))) =
        .ok () →
      sch.validate (.obj []) =
        .ok (sch.attrs.map (fun p => (p.1, p.2.to_json p.2.default)))) ∧
    (∀ (sch : Schema) (entries c : List (Str × JVal)),
      (sch.attrs.map Prod.fst).Nodup →
      (∀ q ∈ entries, ∀ dd, (q.2 : JVal) = .dec dd → dd.WF) →
      (∀ p ∈ sch.attrs, ((p.2 : EAVAttr).default).isNull = false →
        ∃ w, (p.2 : EAVAttr).validate (p.2.to_json p.2.default) = .ok w ∧
          w.isNull = false ∧ p.2.to_json w = p.2.to_json p.2.default) →
      sch.validate (.obj entries) = .ok c →
      sch.validate (.obj c) = .ok c) := by
  constructor
  · intro sch hnd hdef hcross
    have hok : ∀ p ∈ sch.attrs, ∃ v,
        (p.2 : EAVAttr).validate (dget [] p.1) = .ok v :=
      fun p hp => ⟨p.2.default, validate_null_of_default p.2 (hdef p hp)⟩
    have hunk : unknownErrors sch [] = [] := rfl
    have h1 : (fieldPass sch []).1 = [] := by
      unfold fieldPass
      rw [hunk]
      exact foldl_fieldStep_errs_of_ok [] sch.attrs ([], []) hok
    have h2 : (fieldPass sch []).2 =
        sch.attrs.map (fun p => (p.1, p.2.to_json p.2.default)) := by
      unfold fieldPass
      rw [hunk]
      rw [foldl_fieldStep_cleaned_eq [] sch.attrs [] [] hnd (fun k hk hkin => absurd hkin (List.not_mem_nil k))]
      rw [List.nil_append]
      exact cleanList_defaults sch.attrs hdef
    rw [validate_obj_eq, h1, h2]
    rw [if_neg (by simp)]
    rw [hcross]
  · intro sch entries c hnd hWFe hdef h
    obtain ⟨herr1, hcl1, u, hcross⟩ := validate_obj_ok sch entries c h
    have hallok := (foldl_fieldStep_errs_nil entries sch.attrs
      (unknownErrors sch entries, []) herr1).2
    have hc : c = cleanList sch.attrs entries := by
      rw [← hcl1]
      show (sch.attrs.foldl (fieldStep entries)
        (unknownErrors sch entries, [])).2 = _
      rw [foldl_fieldStep_cleaned_eq entries sch.attrs
        (unknownErrors sch entries) [] hnd (fun k hk hkin => absurd hkin (List.not_mem_nil k))]
      rw [List.nil_append]
    have hfun : ∀ p ∈ sch.attrs, cleanEntry c p = cleanEntry entries p ∧
        ∃ v2, (p.2 : EAVAttr).validate (dget c p.1) = .ok v2 := by
      intro p hp
      obtain ⟨v1, hv1⟩ := hallok p hp
      by_cases hn1 : v1.isNull = true
      · have hvn : v1 = .null := by
          cases v1 <;> first | rfl | simp [JVal.isNull] at hn1
        subst hvn
        have hnotin : p.1 ∉ (cleanList sch.attrs entries).map Prod.fst :=
          cleanList_not_mem sch.attrs entries p.1 p.2 hnd hp hv1
        have hdg : dget c p.1 = .null := by
          rw [hc]
          unfold dget
          rw [(alookup_eq_none _ _).mpr hnotin]
          rfl
        have hu : (dget entries p.1).isNull = true := by
          by_contra hcon
          have huf : (dget entries p.1).isNull = false := by simpa using hcon
          obtain ⟨hco, -, -⟩ := validate_ok_parts p.2 _ .null huf hv1
          obtain ⟨hjn, -, -⟩ := tojson_reval p.2 _ .null
            (dget_WF entries p.1 hWFe) hco
          rw [to_json_null] at hjn
          exact absurd hjn (by simp [JVal.isNull])
        have hrev : p.2.validate JVal.null = .ok .null :=
          validate_null_again p.2 _ hu hv1
        refine ⟨?_, ⟨.null, by rw [hdg]; exact hrev⟩⟩
        unfold cleanEntry
        rw [hdg, hv1, hrev]
      · have hn1f : v1.isNull = false := by simpa using hn1
        have hmemc : (p.1, p.2.to_json v1) ∈ cleanList sch.attrs entries :=
          cleanList_mem_of sch.attrs entries p.1 p.2 v1 hp hv1 hn1f
        have hndc : ((cleanList sch.attrs entries).map Prod.fst).Nodup :=
          (cleanList_keys_sublist sch.attrs entries).nodup hnd
        have hdg : dget c p.1 = p.2.to_json v1 := by
          rw [hc]
          unfold dget
          rw [alookup_of_mem_nodup _ _ _ hndc hmemc]
          rfl
        by_cases hu : (dget entries p.1).isNull = true
        · have hval : v1 = p.2.default := validate_null_val p.2 _ v1 hu hv1
          obtain ⟨w, hw, hwnn, hwjson⟩ := hdef p hp (by rw [← hval]; exact hn1f)
          have hrev : p.2.validate (p.2.to_json v1) = .ok w := by
            rw [hval]
            exact hw
          refine ⟨?_, ⟨w, by rw [hdg]; exact hrev⟩⟩
          rw [cleanEntry_store c p w (by rw [hdg]; exact hrev) hwnn]
          rw [cleanEntry_store entries p v1 hv1 hn1f]
          rw [hwjson, ← hval]
        · have huf : (dget entries p.1).isNull = false := by simpa using hu
          obtain ⟨hco, hcons, hcho⟩ := validate_ok_parts p.2 _ v1 huf hv1
          obtain ⟨hjn, hjc, -⟩ := tojson_reval p.2 _ v1
            (dget_WF entries p.1 hWFe) hco
          have hrev : p.2.validate (p.2.to_json v1) = .ok v1 :=
            validate_ok_of_parts p.2 _ v1 hjn hjc hcons hcho
          refine ⟨?_, ⟨v1, by rw [hdg]; exact hrev⟩⟩
          rw [cleanEntry_store c p v1 (by rw [hdg]; exact hrev) hn1f]
          rw [cleanEntry_store entries p v1 hv1 hn1f]
    have hok2 : ∀ p ∈ sch.attrs, ∃ v,
        (p.2 : EAVAttr).validate (dget c p.1) = .ok v :=
      fun p hp => (hfun p hp).2
    have hclean2 : cleanList sch.attrs c = cleanList sch.attrs entries :=
      List.filterMap_congr (fun p hp => (hfun p hp).1)
    have hukeys : unknownKeys sch c = [] := by
      unfold unknownKeys
      rw [List.filter_eq_nil_iff.mpr ?_]
      · rfl
      · intro k hk hdec
        rw [decide_eq_true_eq] at hdec
        exact hdec ((cleanList_keys_sublist sch.attrs entries).subset (hc ▸ hk))
    have hunk2 : unknownErrors sch c = [] := by
      unfold unknownErrors
      rw [hukeys]
      rfl
    have h1 : (fieldPass sch c).1 = [] := by
      unfold fieldPass
      rw [hunk2]
      exact foldl_fieldStep_errs_of_ok c sch.attrs ([], []) hok2
    have h2 : (fieldPass sch c).2 = c := by
      unfold fieldPass
      rw [hunk2]
      rw [foldl_fieldStep_cleaned_eq c sch.attrs [] [] hnd (fun k hk hkin => absurd hkin (List.not_mem_nil k))]
      rw [List.nil_append, hclean2, ← hc]
    rw [validate_obj_eq, h1, h2]
    rw [if_neg (by simp)]
    rw [hcross]

/-- Witness for C9 on `{a : String, optional, default "x"}`: empty input
yields the defaulted mapping, and an accepted input `{"a": "y"}`
re-validates to itself. -/
theorem C9_defaults_idempotence_witness :
    ((Schema.mk [("a".data, EAVAttr.string
        {name := "a".data, required := false, default := .str "x".data}
        none)] (fun _ => .ok ())).validate (.obj []) =
      .ok [("a".data, JVal.str "x".data)]) ∧
    ((Schema.mk [("a".data, EAVAttr.string
        {name := "a".data, required := false, default := .str "x".data}
        none)] (fun _ => .ok ())).validate
        (.obj [("a".data, JVal.str "y".data)]) =
      .ok [("a".data, JVal.str "y".data)]) := by
  constructor
  · exact C9_defaults_idempotence.1
      (Schema.mk [("a".data, EAVAttr.string
        {name := "a".data, required := false, default := .str "x".data}
        none)] (fun _ => .ok ()))
      (by decide) (by decide) rfl
  · refine C9_defaults_idempotence.2
      (Schema.mk [("a".data, EAVAttr.string
        {name := "a".data, required := false, default := .str "x".data}
        none)] (fun _ => .ok ()))
      [("a".data, JVal.str "y".data)] [("a".data, JVal.str "y".data)]
      (by decide) ?_ ?_ rfl
    · intro q hq dd hdd
      rcases List.mem_cons.mp hq with rfl | hq'
      · exact JVal.noConfusion hdd
      · exact absurd hq' (List.not_mem_nil _)
    · intro p hp hdn
      rcases List.mem_cons.mp hp with rfl | hp'
      · exact ⟨JVal.str "x".data, rfl, rfl, rfl⟩
      · exact absurd hp' (List.not_mem_nil _)
